import Mathlib

/- Verification of the file-organizer core (src/core/file_operations.py,
src/features/smart_features.py, src/config/config_manager.py) against its
specification.  Python values are modelled as follows: paths are lists of
components (`List String`), the filesystem is a pair of lists of file paths
and directory paths, Python dicts are association lists in insertion order,
and per-file exceptions are an explicit oracle.  All definitions are
translated from the Python source; definitions written from the
specification's words instead are marked as such in their doc comment. -/

namespace FileOrganizer

/-- Python `str.lower()` (ASCII case folding, character by character). -/
def strLower (s : String) : String :=
  ⟨s.data.map Char.toLower⟩

/-- Python `os.path.splitext`, restricted to a bare filename (no path
separators): split at the last dot, unless every character before that dot
is also a dot (so ".bashrc" has no extension). -/
def splitext (s : String) : String × String :=
  let r := s.data.reverse
  match r.findIdx? (· = '.') with
  | none => (s, "")
  | some i =>
      let pre := r.drop (i+1)
      if pre.all (· = '.') then (s, "")
      else ((pre.reverse).asString, ((r.take (i+1)).reverse).asString)

/-- Python `needle in hay` for strings, on the underlying character lists. -/
def hasSubstrData : List Char → List Char → Bool
  | [], needle => needle.isEmpty
  | c :: rest, needle => needle.isPrefixOf (c :: rest) || hasSubstrData rest needle

/-- Python `needle in hay` (substring containment). -/
def hasSubstr (hay needle : String) : Bool :=
  hasSubstrData hay.data needle.data

/-- Python `dict.get k`: lookup in an insertion-ordered association list. -/
def dget (m : List (String × String)) (k : String) : Option String :=
  (m.find? (fun kv => kv.1 == k)).map (·.2)

/-- `FileOperations.get_file_category`: the first category in the file-type
table's iteration order whose extension list contains the file's lowercased
extension (including the dot); otherwise the literal "Others". -/
def get_file_category (file_types : List (String × List String)) (filename : String) : String :=
  let ext := strLower (splitext filename).2
  match file_types.find? (fun ce => ce.2.contains ext) with
  | some ce => ce.1
  | none => "Others"

/-- `FileOperations.get_custom_tag_category`: the first tag whose lowercased
text occurs as a substring of the lowercased filename; `none` when no tag
matches (Python returns the tag with its original capitalisation). -/
def get_custom_tag_category (filename : String) (custom_tags : List String) : Option String :=
  custom_tags.find? (fun tag => hasSubstr (strLower filename) (strLower tag))

/-- Python truthiness of an `Optional[str]`: `None` and `""` are falsy. -/
def truthy : Option String → Bool
  | none => false
  | some s => !(s == "")

/-- The category computation of `_process_single_file` (file_operations.py,
lines 246-256): `category = manual_assignments.get(filename)`; when that is
falsy (`None` or `""`) the custom-tag result is used if truthy, and
otherwise the extension table. -/
def classify (manual_assignments : List (String × String)) (custom_tags : List String)
    (file_types : List (String × List String)) (filename : String) : String :=
  let category := dget manual_assignments filename
  if truthy category then category.getD ""
  else
    let custom := get_custom_tag_category filename custom_tags
    if truthy custom then custom.getD ""
    else get_file_category file_types filename

/-- Written from the words of amended claim C2 (automatic part): the first
matching custom tag is returned when it is non-empty; an empty first match,
or no match at all, falls through to the extension table. -/
def classifySpecAuto (custom_tags : List String) (file_types : List (String × List String))
    (filename : String) : String :=
  match get_custom_tag_category filename custom_tags with
  | some t => if t ≠ "" then t else get_file_category file_types filename
  | none => get_file_category file_types filename

/-- Written from the words of amended claim C2: a manual assignment wins only
when its value is non-empty; a key mapped to the empty string falls through
to automatic classification. -/
def classifySpec (manual_assignments : List (String × String)) (custom_tags : List String)
    (file_types : List (String × List String)) (filename : String) : String :=
  match dget manual_assignments filename with
  | some c => if c ≠ "" then c else classifySpecAuto custom_tags file_types filename
  | none => classifySpecAuto custom_tags file_types filename

theorem truthy_none : truthy none = false := rfl

theorem truthy_some (s : String) : truthy (some s) = !(s == "") := rfl

theorem truthy_some_iff (s : String) : truthy (some s) = true ↔ s ≠ "" := by
  simp [truthy]

/-- C2: the claim as stated is false: a filename that is a key of
`manual_assignments` with value `""` is not classified to that value
(Python's `if not category:` treats the empty string as absent). -/
theorem classify_manual_empty_not_returned :
    classify [("a.txt", "")] [] [] "a.txt" ≠ "" := by
  decide

/-- C2 (amended): classification precedence with Python truthiness: a manual
assignment applies only when its value is non-empty, the first matching
custom tag applies only when that tag is non-empty, and otherwise the first
extension-table category (or "Others") is returned. -/
theorem classify_eq_classifySpec (ma : List (String × String)) (tags : List String)
    (ft : List (String × List String)) (filename : String) :
    classify ma tags ft filename = classifySpec ma tags ft filename := by
  unfold classify classifySpec classifySpecAuto
  cases hma : dget ma filename with
  | none =>
      simp only [truthy_none, Bool.false_eq_true, if_false]
      cases hct : get_custom_tag_category filename tags with
      | none => simp [truthy]
      | some t =>
          by_cases ht : t = ""
          · subst ht; simp [truthy]
          · simp [truthy, ht]
  | some c =>
      by_cases hc : c = ""
      · subst hc
        simp only [truthy_some, beq_self_eq_true, Bool.not_true, Bool.false_eq_true, if_false,
          ne_eq, not_true_eq_false, if_false]
        cases hct : get_custom_tag_category filename tags with
        | none => simp [truthy]
        | some t =>
            by_cases ht : t = ""
            · subst ht; simp [truthy]
            · simp [truthy, ht]
      · simp [truthy, hc]

/-- C10: the claim as stated is false: with the empty string as the (first)
custom tag, a file with no manual assignment is still classified by its
extension ("photo.jpg" gets "Images", not the empty-string category), because
`_process_single_file` treats the empty tag result as no match. -/
theorem classify_empty_tag_falls_through :
    classify [] [""] [("Images", [".jpg"])] "photo.jpg" = "Images" ∧
      classify [] [""] [("Images", [".jpg"])] "photo.jpg" ≠ "" := by
  constructor
  · decide
  · decide

theorem hasSubstr_right_empty (hay : String) : hasSubstr hay "" = true := by
  unfold hasSubstr
  have h : ("" : String).data = [] := rfl
  rw [h]
  cases hay.data with
  | nil => rfl
  | cons c cs => simp [hasSubstrData, List.isPrefixOf]

/-- C10 (amended): when the custom tag list starts with the empty string,
`get_custom_tag_category` always matches it, but `_process_single_file`
treats the empty result as no match, so every file without a manual
assignment is classified by the extension table (or "Others"), never by a
later tag and never as the empty string. -/
theorem classify_empty_first_tag (ma : List (String × String)) (rest : List String)
    (ft : List (String × List String)) (filename : String)
    (hma : dget ma filename = none) :
    classify ma ("" :: rest) ft filename = get_file_category ft filename := by
  unfold classify
  rw [hma]
  have hct : get_custom_tag_category filename ("" :: rest) = some "" := by
    unfold get_custom_tag_category
    rw [List.find?_cons_of_pos]
    have h : strLower "" = "" := rfl
    rw [h]
    exact hasSubstr_right_empty (strLower filename)
  rw [hct]
  simp [truthy]

theorem classify_empty_first_tag_witness :
    dget [] "photo.jpg" = none ∧
      classify [] ("" :: []) [("Images", [".jpg"])] "photo.jpg" =
        get_file_category [("Images", [".jpg"])] "photo.jpg" :=
  ⟨by decide, classify_empty_first_tag [] [] [("Images", [".jpg"])] "photo.jpg" (by decide)⟩



/-- A filesystem path, as its list of components. -/
abbrev Path := List String

/-- The filesystem state: the existing regular files and the existing
directories, as lists of paths (reachable states keep them duplicate-free). -/
structure FS where
  files : List Path
  dirs : List Path
deriving DecidableEq, Repr

/-- Python `f.startswith '.'`: the first character is a dot. -/
def startsWithDot (f : String) : Bool :=
  match f.data with
  | '.' :: _ => true
  | _ => false

/-- `FileOperations.passes_size_filter`: inclusive bounds
`min_size_bytes <= file_size <= max_size_bytes`.  `get_file_size` is the
oracle `sz` (total: Python returns 0 on exception), and a `none` maximum
models the default `float('inf')`. -/
def passes_size_filter (sz : Path → Nat) (file_path : Path)
    (min_size_bytes : Nat) (max_size_bytes : Option Nat) : Bool :=
  let file_size := sz file_path
  decide (min_size_bytes ≤ file_size) &&
    (match max_size_bytes with
     | none => true
     | some m => decide (file_size ≤ m))

/-- `FileOperations.get_files_in_folder`: names of the regular files directly
inside `folder` (in listing order), dropping dot-prefixed names when
`skip_hidden` is set, then dropping files that fail the size filter. -/
def get_files_in_folder (fs : FS) (sz : Path → Nat) (folder : Path) (skip_hidden : Bool)
    (min_size_bytes : Nat) (max_size_bytes : Option Nat) : List String :=
  let all1 := (fs.files.filter (fun p => p.dropLast == folder)).map (fun p => p.getLastD "")
  let all2 := if skip_hidden then all1.filter (fun f => !(startsWithDot f)) else all1
  all2.filter (fun f => passes_size_filter sz (folder ++ [f]) min_size_bytes max_size_bytes)

/-- C7: the candidate-file size filter admits a file exactly when
min_size <= size <= max_size (inclusive bounds): a file of exactly
`min_size` bytes is included (whenever the bounds are a non-empty interval),
a file of exactly `max_size + 1` bytes is excluded, and with `min_size = 0`
and no maximum every non-hidden regular top-level file is listed. -/
theorem passes_size_filter_inclusive :
    (∀ (sz : Path → Nat) (p : Path) (minS : Nat) (maxS : Option Nat),
        passes_size_filter sz p minS maxS = true ↔
          (minS ≤ sz p ∧ ∀ m, maxS = some m → sz p ≤ m)) ∧
    (∀ (sz : Path → Nat) (p : Path) (minS m : Nat), sz p = minS → minS ≤ m →
        passes_size_filter sz p minS (some m) = true) ∧
    (∀ (sz : Path → Nat) (p : Path) (minS : Nat), sz p = minS →
        passes_size_filter sz p minS none = true) ∧
    (∀ (sz : Path → Nat) (p : Path) (minS m : Nat), sz p = m + 1 →
        passes_size_filter sz p minS (some m) = false) ∧
    (∀ (fs : FS) (sz : Path → Nat) (folder : Path), folder ≠ [] →
        ∀ f, f ∈ get_files_in_folder fs sz folder true 0 none ↔
          ((folder ++ [f]) ∈ fs.files ∧ startsWithDot f = false)) := by
  refine ⟨?_, ?_, ?_, ?_, ?_⟩
  · intro sz p minS maxS
    cases maxS with
    | none => simp [passes_size_filter]
    | some m => simp [passes_size_filter]
  · intro sz p minS m hsz hle
    simp [passes_size_filter, hsz, hle]
  · intro sz p minS hsz
    simp [passes_size_filter, hsz]
  · intro sz p minS m hsz
    simp [passes_size_filter, hsz]
  · intro fs sz folder hfolder f
    unfold get_files_in_folder
    simp only [if_true, List.mem_filter, List.mem_map]
    constructor
    · rintro ⟨⟨⟨p, hp, rfl⟩, hhid⟩, -⟩
      obtain ⟨hpf, hpd⟩ := hp
      rcases p.eq_nil_or_concat with rfl | ⟨q, b, rfl⟩
      · exact absurd (by simpa using hpd) hfolder
      · rw [List.concat_eq_append] at hpf hpd ⊢
        rw [List.getLastD_concat]
        have hq : q = folder := by simpa using hpd
        subst hq
        exact ⟨hpf, by simpa using hhid⟩
    · rintro ⟨hmem, hhid⟩
      refine ⟨⟨⟨folder ++ [f], ⟨hmem, by simp⟩, List.getLastD_concat _ _ _⟩, by simp [hhid]⟩, ?_⟩
      simp [passes_size_filter]

theorem passes_size_filter_inclusive_witness :
    passes_size_filter (fun _ => 5) [] 5 (some 9) = true ∧
      passes_size_filter (fun _ => 10) [] 5 (some 9) = false ∧
      ("a.txt" ∈ get_files_in_folder ⟨[["home", "a.txt"]], [[], ["home"]]⟩ (fun _ => 5)
          ["home"] true 0 none ↔
        ((["home"] ++ ["a.txt"]) ∈ [["home", "a.txt"]] ∧ startsWithDot "a.txt" = false)) :=
  ⟨passes_size_filter_inclusive.2.1 (fun _ => 5) [] 5 9 rfl (by decide),
   passes_size_filter_inclusive.2.2.2.1 (fun _ => 10) [] 5 9 rfl,
   passes_size_filter_inclusive.2.2.2.2 ⟨[["home", "a.txt"]], [[], ["home"]]⟩ (fun _ => 5)
     ["home"] (by decide) "a.txt"⟩
/-- The built-in default category table of `ConfigManager.__init__`. -/
def default_file_types : List (String × List String) :=
  [("Images", [".jpg", ".jpeg", ".png", ".gif", ".bmp", ".svg", ".webp", ".tiff", ".ico"]),
   ("Documents", [".pdf", ".docx", ".doc", ".txt", ".rtf", ".odt", ".xlsx", ".xls", ".ods",
      ".pptx", ".ppt", ".csv", ".md"]),
   ("Videos", [".mp4", ".avi", ".mov", ".mkv", ".wmv", ".webm", ".flv", ".mpeg"]),
   ("Audio", [".mp3", ".wav", ".ogg", ".m4a", ".flac", ".aac", ".wma", ".aiff"]),
   ("Archives", [".zip", ".rar", ".7z", ".tar", ".gz", ".bz2", ".xz", ".iso"]),
   ("Code", [".py", ".js", ".ts", ".html", ".css", ".scss", ".java", ".cpp", ".c", ".cs",
      ".json", ".xml", ".php", ".sh", ".bat", ".go", ".rb", ".swift"]),
   ("Executables", [".exe", ".msi", ".apk", ".appimage", ".dmg", ".deb", ".rpm"]),
   ("Fonts", [".ttf", ".otf", ".woff", ".woff2"]),
   ("Design", [".psd", ".ai", ".xd", ".sketch", ".fig"]),
   ("Ebooks", [".epub", ".mobi", ".azw", ".djvu"])]

/-- Python `d[k] = v` on an insertion-ordered dict: overwrite in place when
the key exists, else append at the end. -/
def dictSet (m : List (String × List String)) (k : String) (v : List String) :
    List (String × List String) :=
  if m.any (fun kv => kv.1 == k) then
    m.map (fun kv => if kv.1 == k then (k, v) else kv)
  else m ++ [(k, v)]

/-- The `file_types` merge of `ConfigManager.load_config` (lines 46-54):
start from a copy of the defaults and store each category of the user file
with its extension list de-duplicated.  Python uses `list(set(extensions))`,
whose order is unspecified; this is modelled as `List.dedup`, which keeps
first occurrences, and the theorems only use order-insensitive facts. -/
def sync_file_types (file_types_from_file : List (String × List String)) :
    List (String × List String) :=
  file_types_from_file.foldl (fun acc kv => dictSet acc kv.1 kv.2.dedup) default_file_types

/-- `ConfigManager.load_config`, restricted to the `file_types` key: `none`
models a missing or unparseable config file (the defaults are used
unchanged), `some ftf` a parsed file whose `file_types` entry is `ftf`
(`config.get` supplies the empty dict when the key is absent). -/
def load_file_types (stored : Option (List (String × List String))) :
    List (String × List String) :=
  match stored with
  | none => default_file_types
  | some ftf => sync_file_types ftf

theorem dictSet_mem_self (m : List (String × List String)) (k : String) (v : List String) :
    (k, v) ∈ dictSet m k v := by
  unfold dictSet
  split
  · next h =>
      rw [List.any_eq_true] at h
      obtain ⟨kv, hkv, hbeq⟩ := h
      exact List.mem_map.mpr ⟨kv, hkv, by simp [hbeq]⟩
  · exact List.mem_append_right _ (by simp)

theorem dictSet_mem_other (m : List (String × List String)) (k : String) (v : List String)
    (c : String) (w : List String) (hck : c ≠ k) (hm : (c, w) ∈ m) :
    (c, w) ∈ dictSet m k v := by
  unfold dictSet
  split
  · exact List.mem_map.mpr ⟨(c, w), hm, by simp [hck]⟩
  · exact List.mem_append_left _ hm

theorem syncFold_preserves (l : List (String × List String))
    (acc : List (String × List String)) (c : String) (v : List String)
    (hmem : (c, v) ∈ acc) (hfresh : ∀ e ∈ l, e.1 ≠ c) :
    (c, v) ∈ l.foldl (fun acc kv => dictSet acc kv.1 kv.2.dedup) acc := by
  induction l generalizing acc with
  | nil => exact hmem
  | cons kv rest ih =>
      refine ih _ ?_ (fun e he => hfresh e (List.mem_cons_of_mem _ he))
      exact dictSet_mem_other _ _ _ _ _
        (fun h => hfresh kv (List.mem_cons_self _ _) h.symm) hmem

theorem syncFold_user (l : List (String × List String))
    (acc : List (String × List String)) (c : String) (exts : List String)
    (hmem : (c, exts) ∈ l) (hnodup : (l.map Prod.fst).Nodup) :
    (c, exts.dedup) ∈ l.foldl (fun acc kv => dictSet acc kv.1 kv.2.dedup) acc := by
  induction l generalizing acc with
  | nil => cases hmem
  | cons kv rest ih =>
      rcases List.mem_cons.mp hmem with heq | htail
      · subst heq
        simp only [List.map_cons, List.nodup_cons] at hnodup
        refine syncFold_preserves rest _ c exts.dedup (dictSet_mem_self _ _ _) ?_
        intro e he hec
        exact hnodup.1 (hec ▸ List.mem_map_of_mem Prod.fst he)
      · exact ih _ htail (by simpa using hnodup.of_cons)

/-- C9: configuration load merges the built-in defaults with the user file:
every category of the user file is kept with its extension list
de-duplicated (same members, no duplicates), and every category present only
in the built-in defaults is still present in the returned table. -/
theorem load_config_merges (ftf : List (String × List String))
    (hnodup : (ftf.map Prod.fst).Nodup) :
    (∀ c exts, (c, exts) ∈ ftf →
      ∃ exts', (c, exts') ∈ load_file_types (some ftf) ∧ exts'.Nodup ∧
        ∀ x, x ∈ exts' ↔ x ∈ exts) ∧
    (∀ c v, (c, v) ∈ default_file_types → (∀ e ∈ ftf, e.1 ≠ c) →
      (c, v) ∈ load_file_types (some ftf)) := by
  constructor
  · intro c exts hmem
    exact ⟨exts.dedup, syncFold_user ftf default_file_types c exts hmem hnodup,
      List.nodup_dedup exts, fun x => List.mem_dedup⟩
  · intro c v hdef hfresh
    exact syncFold_preserves ftf default_file_types c v hdef hfresh

theorem load_config_merges_witness :
    (∃ exts', ("Custom", exts') ∈ load_file_types (some [("Custom", [".foo", ".foo"])]) ∧
        exts'.Nodup ∧ ∀ x, x ∈ exts' ↔ x ∈ [".foo", ".foo"]) ∧
      ("Fonts", [".ttf", ".otf", ".woff", ".woff2"]) ∈
        load_file_types (some [("Custom", [".foo", ".foo"])]) :=
  ⟨(load_config_merges [("Custom", [".foo", ".foo"])] (by decide)).1 "Custom"
      [".foo", ".foo"] (by decide),
   (load_config_merges [("Custom", [".foo", ".foo"])] (by decide)).2 "Fonts"
      [".ttf", ".otf", ".woff", ".woff2"] (by decide) (by decide)⟩

/-- A directory entry for the duplicate scanner: a top-level regular file of
the scanned folder, with its name and content bytes.  SHA-256 hashing is
modelled by the content itself: the spec treats hash equality as content
equality, with cryptographic-collision-level confidence. -/
structure DirEntry where
  name : String
  content : List Nat
deriving DecidableEq, Repr

/-- Python `hashes[file_hash].append(filename)` on `defaultdict(list)`: the
group keyed by `h` gets `name` appended; a missing key is created at the end
(dicts keep first-seen key order). -/
def addToGroups (acc : List (List Nat × List String)) (h : List Nat) (name : String) :
    List (List Nat × List String) :=
  if acc.any (fun g => g.1 == h) then
    acc.map (fun g => if g.1 == h then (g.1, g.2 ++ [name]) else g)
  else acc ++ [(h, [name])]

/-- `SmartFeatures.find_duplicates` over a directory listing: list the
non-hidden top-level files, skip zero-byte files, group the remaining names
by content hash in file order, and keep only the groups with two or more
members.  Per-file read failures (logged and skipped in Python) are not
modelled. -/
def find_duplicates (listing : List DirEntry) : List (List Nat × List String) :=
  let files := listing.filter (fun e => !(startsWithDot e.name))
  let hashes := files.foldl
    (fun acc e => if e.content.length == 0 then acc else addToGroups acc e.content e.name) []
  hashes.filter (fun g => 1 < g.2.length)

/-- The files of the listing that `find_duplicates` actually hashes:
non-hidden and non-empty, in listing order. -/
def scannedEntries (listing : List DirEntry) : List DirEntry :=
  (listing.filter (fun e => !(startsWithDot e.name))).filter
    (fun e => !(e.content.length == 0))

/-- The names of the scanned files whose content is `k`, in listing order. -/
def hashNames (listing : List DirEntry) (k : List Nat) : List String :=
  ((scannedEntries listing).filter (fun e => e.content == k)).map (fun e => e.name)

/-- The grouping state of the `find_duplicates` fold represents the
name-list-per-hash function `f`. -/
def GroupsRep (acc : List (List Nat × List String)) (f : List Nat → List String) : Prop :=
  (acc.map Prod.fst).Nodup ∧
  (∀ k ns, (k, ns) ∈ acc → ns = f k ∧ ns ≠ []) ∧
  (∀ k, (∃ ns, (k, ns) ∈ acc) ↔ f k ≠ [])

theorem addToGroups_rep (acc : List (List Nat × List String)) (f : List Nat → List String)
    (k : List Nat) (n : String) (h : GroupsRep acc f) :
    GroupsRep (addToGroups acc k n)
      (fun q => if q = k then f q ++ [n] else f q) := by
  obtain ⟨hnd, hval, hkey⟩ := h
  unfold addToGroups
  split
  · next hany =>
      have hfst : ∀ g : List Nat × List String,
          (if g.1 == k then (g.1, g.2 ++ [n]) else g).1 = g.1 := by
        intro g
        by_cases hgk : g.1 = k <;> simp [hgk]
      refine ⟨?_, ?_, ?_⟩
      · rw [List.map_map]
        have heqf : (Prod.fst ∘ fun g : List Nat × List String =>
            if g.1 == k then (g.1, g.2 ++ [n]) else g) = Prod.fst := funext hfst
        rwa [heqf]
      · intro q ns hmem
        obtain ⟨g, hg, heq⟩ := List.mem_map.mp hmem
        by_cases hgk : g.1 = k
        · rw [if_pos (by simp [hgk])] at heq
          simp only [Prod.mk.injEq] at heq
          obtain ⟨h1, h2⟩ := heq
          subst h1
          subst h2
          obtain ⟨hv, -⟩ := hval g.1 g.2 (by simpa using hg)
          refine ⟨?_, by simp⟩
          rw [hv, hgk]
          simp
        · rw [if_neg (by simpa using hgk)] at heq
          subst heq
          have hqk : q ≠ k := by simpa using hgk
          obtain ⟨hv, hne⟩ := hval q ns hg
          simp only [if_neg hqk]
          exact ⟨hv, hne⟩
      · intro q
        by_cases hqk : q = k
        · subst hqk
          simp only [if_pos rfl]
          constructor
          · intro _
            intro hcontra
            exact absurd (List.append_eq_nil.mp hcontra).2 (by simp)
          · intro _
            rw [List.any_eq_true] at hany
            obtain ⟨g, hg, hbeq⟩ := hany
            have hgk : g.1 = q := by simpa using hbeq
            refine ⟨g.2 ++ [n], List.mem_map.mpr ⟨g, hg, ?_⟩⟩
            rw [if_pos (by simp [hgk]), hgk]
        · simp only [if_neg hqk]
          rw [← hkey q]
          constructor
          · rintro ⟨ns, hmem⟩
            obtain ⟨g, hg, heq⟩ := List.mem_map.mp hmem
            by_cases hgk : g.1 = k
            · rw [if_pos (by simp [hgk])] at heq
              simp only [Prod.mk.injEq] at heq
              exact absurd (by rw [← heq.1, hgk]) hqk
            · rw [if_neg (by simpa using hgk)] at heq
              subst heq
              exact ⟨ns, hg⟩
          · rintro ⟨ns, hmem⟩
            refine ⟨ns, List.mem_map.mpr ⟨(q, ns), hmem, ?_⟩⟩
            rw [if_neg (by simpa using hqk)]
  · next hany =>
      have hknot : ∀ ns, (k, ns) ∉ acc := by
        intro ns hmem
        exact hany (List.any_eq_true.mpr ⟨(k, ns), hmem, by simp⟩)
      have hfk : f k = [] := by
        by_contra hfk
        obtain ⟨ns, hns⟩ := (hkey k).mpr hfk
        exact hknot ns hns
      refine ⟨?_, ?_, ?_⟩
      · rw [List.map_append]
        refine List.Nodup.append hnd (by simp) ?_
        intro a ha hb
        simp only [List.map_cons, List.map_nil, List.mem_singleton] at hb
        subst hb
        obtain ⟨g, hg, hgk⟩ := List.mem_map.mp ha
        refine hknot g.2 ?_
        rw [← hgk, Prod.mk.eta]
        exact hg
      · intro q ns hmem
        rcases List.mem_append.mp hmem with hin | hin
        · have hqk : q ≠ k := fun hq => hknot ns (hq ▸ hin)
          obtain ⟨hv, hne⟩ := hval q ns hin
          simp only [if_neg hqk]
          exact ⟨hv, hne⟩
        · simp only [List.mem_singleton, Prod.mk.injEq] at hin
          obtain ⟨rfl, rfl⟩ := hin
          simp [hfk]
      · intro q
        by_cases hqk : q = k
        · subst hqk
          simp only [if_pos rfl, hfk]
          exact ⟨fun _ => by simp, fun _ => ⟨[n], List.mem_append_right _ (by simp)⟩⟩
        · simp only [if_neg hqk]
          rw [← hkey q]
          constructor
          · rintro ⟨ns, hmem⟩
            rcases List.mem_append.mp hmem with hin | hin
            · exact ⟨ns, hin⟩
            · simp only [List.mem_singleton, Prod.mk.injEq] at hin
              exact absurd hin.1 hqk
          · rintro ⟨ns, hmem⟩
            exact ⟨ns, List.mem_append_left _ hmem⟩

theorem groupsFold_rep (l : List DirEntry) (acc : List (List Nat × List String))
    (f : List Nat → List String) (h : GroupsRep acc f) :
    GroupsRep (l.foldl (fun acc e => addToGroups acc e.content e.name) acc)
      (fun k => f k ++ (l.filter (fun e => e.content == k)).map (fun e => e.name)) := by
  induction l generalizing acc f with
  | nil => simpa using h
  | cons e rest ih =>
      have step := addToGroups_rep acc f e.content e.name h
      have result := ih (addToGroups acc e.content e.name)
        (fun q => if q = e.content then f q ++ [e.name] else f q) step
      have hfun : (fun k => (if k = e.content then f k ++ [e.name] else f k) ++
          (rest.filter (fun x => x.content == k)).map (fun x => x.name)) =
          (fun k => f k ++
            ((e :: rest).filter (fun x => x.content == k)).map (fun x => x.name)) := by
        funext k
        by_cases hk : k = e.content
        · subst hk
          rw [if_pos rfl, List.filter_cons_of_pos (by simp), List.map_cons, List.append_assoc]
          rfl
        · rw [if_neg hk, List.filter_cons_of_neg (by simpa using fun hc => hk hc.symm)]
      simpa only [List.foldl_cons, hfun] using result

theorem fold_skip_eq (l : List DirEntry) (acc : List (List Nat × List String)) :
    l.foldl (fun acc e => if e.content.length == 0 then acc
        else addToGroups acc e.content e.name) acc =
      (l.filter (fun e => !(e.content.length == 0))).foldl
        (fun acc e => addToGroups acc e.content e.name) acc := by
  induction l generalizing acc with
  | nil => rfl
  | cons e rest ih =>
      by_cases he : e.content.length = 0
      · rw [List.foldl_cons, if_pos (by simpa using he),
          List.filter_cons_of_neg (by simpa using he)]
        exact ih acc
      · rw [List.foldl_cons, if_neg (by simpa using he),
          List.filter_cons_of_pos (by simpa using he), List.foldl_cons]
        exact ih _

theorem find_duplicates_eq (l : List DirEntry) :
    find_duplicates l = ((scannedEntries l).foldl
        (fun acc e => addToGroups acc e.content e.name) []).filter
      (fun g => 1 < g.2.length) :=
  congrArg _ (fold_skip_eq (l.filter (fun e => !(startsWithDot e.name))) [])

theorem find_duplicates_rep (l : List DirEntry) :
    GroupsRep ((scannedEntries l).foldl
        (fun acc e => addToGroups acc e.content e.name) []) (hashNames l) := by
  have h0 : GroupsRep [] (fun _ => []) := by
    refine ⟨by simp, by simp, fun k => by simp⟩
  have := groupsFold_rep (scannedEntries l) [] (fun _ => []) h0
  unfold hashNames
  simpa using this

theorem one_lt_length_of_mem_ne {α : Type} {xs : List α} {a b : α}
    (ha : a ∈ xs) (hb : b ∈ xs) (hab : a ≠ b) : 1 < xs.length := by
  cases xs with
  | nil => cases ha
  | cons x rest =>
      cases rest with
      | nil =>
          rw [List.mem_singleton] at ha hb
          exact absurd (ha.trans hb.symm) hab
      | cons y rest2 => simp [Nat.lt_add_right]

theorem exists_mem_ne_of_nodup {α : Type} {xs : List α} {a : α}
    (hnd : xs.Nodup) (hlen : 1 < xs.length) (ha : a ∈ xs) : ∃ b ∈ xs, b ≠ a := by
  cases xs with
  | nil => cases ha
  | cons x rest =>
      cases rest with
      | nil => simp at hlen
      | cons y rest2 =>
          by_cases hax : a = x
          · subst hax
            refine ⟨y, by simp, fun hya => ?_⟩
            rw [List.nodup_cons] at hnd
            exact hnd.1 (hya ▸ List.mem_cons_self y rest2)
          · exact ⟨x, by simp, fun hxa => hax (hxa ▸ rfl)⟩

theorem exists_map_ne {α β : Type} {xs : List α} {f : α → β}
    (hlen : 1 < xs.length) (hnd : (xs.map f).Nodup) :
    ∃ a ∈ xs, ∃ b ∈ xs, f a ≠ f b := by
  cases xs with
  | nil => simp at hlen
  | cons x rest =>
      cases rest with
      | nil => simp at hlen
      | cons y rest2 =>
          refine ⟨x, by simp, y, by simp, fun hxy => ?_⟩
          rw [List.map_cons, List.nodup_cons] at hnd
          exact hnd.1 (hxy ▸ List.mem_map_of_mem f (List.mem_cons_self y rest2))

theorem mem_scannedEntries {l : List DirEntry} {e : DirEntry} :
    e ∈ scannedEntries l ↔
      e ∈ l ∧ startsWithDot e.name = false ∧ e.content ≠ [] := by
  unfold scannedEntries
  rw [List.mem_filter, List.mem_filter]
  constructor
  · rintro ⟨⟨hel, hhid⟩, hlen⟩
    refine ⟨hel, by simpa using hhid, ?_⟩
    simpa [List.length_eq_zero] using hlen
  · rintro ⟨hel, hhid, hlen⟩
    refine ⟨⟨hel, by simp [hhid]⟩, ?_⟩
    simpa [List.length_eq_zero] using hlen

theorem mem_hashNames {l : List DirEntry} {k : List Nat} {n : String} :
    n ∈ hashNames l k ↔
      ∃ e, e ∈ scannedEntries l ∧ e.content = k ∧ e.name = n := by
  unfold hashNames
  simp only [List.mem_map, List.mem_filter, beq_iff_eq]
  constructor
  · rintro ⟨e, ⟨he, hk⟩, hn⟩
    exact ⟨e, he, hk, hn⟩
  · rintro ⟨e, he, hk, hn⟩
    exact ⟨e, ⟨he, hk⟩, hn⟩

theorem scannedEntries_sublist (l : List DirEntry) : List.Sublist (scannedEntries l) l :=
  (List.filter_sublist _).trans (List.filter_sublist l)

theorem hashNames_nodup {l : List DirEntry} (hnames : (l.map (fun e => e.name)).Nodup)
    (k : List Nat) : (hashNames l k).Nodup := by
  unfold hashNames
  exact hnames.sublist
    (((List.filter_sublist _).trans (scannedEntries_sublist l)).map (fun e => e.name))

/-- C6: `find_duplicates` scans only the non-hidden, non-empty top-level
files (the listing is the folder's top-level regular files), returns only
groups of two or more names sharing one content hash, puts two files with
identical content into the same single group, puts a file whose content
matches no other file into no group, and returns the empty result when all
scanned files are pairwise distinct. -/
theorem find_duplicates_correct (l : List DirEntry)
    (hnames : (l.map (fun e => e.name)).Nodup) :
    (∀ g ∈ find_duplicates l, 2 ≤ g.2.length) ∧
    (∀ g ∈ find_duplicates l, ∀ n ∈ g.2, ∃ e, e ∈ l ∧ e.name = n ∧
        startsWithDot e.name = false ∧ e.content ≠ [] ∧ e.content = g.1) ∧
    (∀ e1 e2, e1 ∈ l → e2 ∈ l →
        startsWithDot e1.name = false → e1.content ≠ [] →
        startsWithDot e2.name = false → e2.content ≠ [] →
        e1.name ≠ e2.name → e1.content = e2.content →
        ∃ g, g ∈ find_duplicates l ∧ g.1 = e1.content ∧ e1.name ∈ g.2 ∧ e2.name ∈ g.2 ∧
          ∀ g', g' ∈ find_duplicates l → e1.name ∈ g'.2 → g' = g) ∧
    (∀ e, e ∈ l → (∀ e', e' ∈ l → e'.name ≠ e.name → e'.content ≠ e.content) →
        ∀ g ∈ find_duplicates l, e.name ∉ g.2) ∧
    ((∀ e1, e1 ∈ l → ∀ e2, e2 ∈ l → e1.name ≠ e2.name → e1.content ≠ e2.content) →
        find_duplicates l = []) := by
  obtain ⟨hGnd, hGval, hGkey⟩ := find_duplicates_rep l
  have heq := find_duplicates_eq l
  have hmemfd : ∀ g, g ∈ find_duplicates l ↔
      (g ∈ (scannedEntries l).foldl (fun acc e => addToGroups acc e.content e.name) [] ∧
        1 < g.2.length) := by
    intro g
    rw [heq, List.mem_filter]
    simp
  have hval : ∀ g, g ∈ find_duplicates l → g.2 = hashNames l g.1 ∧ 1 < g.2.length := by
    intro g hg
    obtain ⟨hG, hlen⟩ := (hmemfd g).mp hg
    have := hGval g.1 g.2 (by rwa [Prod.mk.eta])
    exact ⟨this.1, hlen⟩
  have hinj : ∀ x, x ∈ l → ∀ y, y ∈ l → x.name = y.name → x = y := by
    intro x hx y hy hxy
    exact List.inj_on_of_nodup_map hnames hx hy hxy
  refine ⟨?_, ?_, ?_, ?_, ?_⟩
  · intro g hg
    exact ((hmemfd g).mp hg).2
  · intro g hg n hn
    obtain ⟨hv, -⟩ := hval g hg
    rw [hv, mem_hashNames] at hn
    obtain ⟨e, hes, hk, hname⟩ := hn
    obtain ⟨hel, hhid, hne⟩ := mem_scannedEntries.mp hes
    exact ⟨e, hel, hname, hhid, hne, hk⟩
  · intro e1 e2 h1l h2l h1hid h1ne h2hid h2ne hname hcont
    have h1s : e1 ∈ scannedEntries l := mem_scannedEntries.mpr ⟨h1l, h1hid, h1ne⟩
    have h2s : e2 ∈ scannedEntries l := mem_scannedEntries.mpr ⟨h2l, h2hid, h2ne⟩
    have hn1 : e1.name ∈ hashNames l e1.content :=
      mem_hashNames.mpr ⟨e1, h1s, rfl, rfl⟩
    have hn2 : e2.name ∈ hashNames l e1.content :=
      mem_hashNames.mpr ⟨e2, h2s, hcont.symm, rfl⟩
    have hkeyne : hashNames l e1.content ≠ [] := fun hnil => by
      rw [hnil] at hn1
      cases hn1
    obtain ⟨ns, hns⟩ := (hGkey e1.content).mpr hkeyne
    have hnsval := (hGval e1.content ns hns).1
    subst hnsval
    have hlen : 1 < (hashNames l e1.content).length :=
      one_lt_length_of_mem_ne hn1 hn2 hname
    refine ⟨(e1.content, hashNames l e1.content),
      (hmemfd _).mpr ⟨hns, by simpa using hlen⟩, rfl, hn1, hn2, ?_⟩
    intro g' hg' hn1g
    obtain ⟨hv', hlen'⟩ := hval g' hg'
    rw [hv', mem_hashNames] at hn1g
    obtain ⟨e', hes', hk', hname'⟩ := hn1g
    have he' : e' = e1 := hinj e' ((scannedEntries_sublist l).subset hes') e1 h1l hname'
    have hk1 : g'.1 = e1.content := by rw [← hk', he']
    have hpair : g' = (g'.1, g'.2) := by rw [Prod.mk.eta]
    rw [hpair, hk1, hv', hk1]
  · intro e hel huniq g hg hmem
    obtain ⟨hv, hlen⟩ := hval g hg
    rw [hv, mem_hashNames] at hmem
    obtain ⟨e', hes', hk', hname'⟩ := hmem
    have he' : e' = e := hinj e' ((scannedEntries_sublist l).subset hes') e hel hname'
    have hge : g.1 = e.content := by rw [← hk', he']
    have hnd2 : g.2.Nodup := hv ▸ hashNames_nodup hnames g.1
    have hmem2 : e.name ∈ g.2 := by
      rw [hv, mem_hashNames]
      exact ⟨e', hes', hk', hname'⟩
    obtain ⟨b, hb, hbne⟩ := exists_mem_ne_of_nodup hnd2 hlen hmem2
    rw [hv, mem_hashNames] at hb
    obtain ⟨e2, hes2, hk2, hname2⟩ := hb
    refine absurd (hk2.trans hge) (huniq e2 ((scannedEntries_sublist l).subset hes2) ?_)
    rw [hname2]
    exact hbne
  · intro hdist
    rw [heq, List.filter_eq_nil_iff]
    intro g hG
    obtain ⟨hv, -⟩ := hGval g.1 g.2 (by rwa [Prod.mk.eta])
    intro hlen
    rw [decide_eq_true_iff] at hlen
    rw [hv] at hlen
    unfold hashNames at hlen
    rw [List.length_map] at hlen
    obtain ⟨a, ha, b, hb, hab⟩ := exists_map_ne hlen (by
      have hnn := hashNames_nodup hnames g.1
      unfold hashNames at hnn
      exact hnn)
    have hak := (List.mem_filter.mp ha).2
    have hbk := (List.mem_filter.mp hb).2
    rw [beq_iff_eq] at hak hbk
    have hal : a ∈ l := (scannedEntries_sublist l).subset (List.mem_filter.mp ha).1
    have hbl : b ∈ l := (scannedEntries_sublist l).subset (List.mem_filter.mp hb).1
    exact hdist a hal b hbl hab (hak.trans hbk.symm)

theorem find_duplicates_correct_witness :
    (∃ g, g ∈ find_duplicates [⟨"a", [1]⟩, ⟨"b", [1]⟩, ⟨"c", [2]⟩] ∧
        g.1 = (⟨"a", [1]⟩ : DirEntry).content ∧
        (⟨"a", [1]⟩ : DirEntry).name ∈ g.2 ∧ (⟨"b", [1]⟩ : DirEntry).name ∈ g.2 ∧
        ∀ g', g' ∈ find_duplicates [⟨"a", [1]⟩, ⟨"b", [1]⟩, ⟨"c", [2]⟩] →
          (⟨"a", [1]⟩ : DirEntry).name ∈ g'.2 → g' = g) ∧
      find_duplicates [⟨"a", [1]⟩, ⟨"b", [2]⟩] = [] :=
  ⟨(find_duplicates_correct [⟨"a", [1]⟩, ⟨"b", [1]⟩, ⟨"c", [2]⟩] (by decide)).2.2.1
      ⟨"a", [1]⟩ ⟨"b", [1]⟩ (by decide) (by decide) (by decide) (by decide) (by decide)
      (by decide) (by decide) (by decide),
   (find_duplicates_correct [⟨"a", [1]⟩, ⟨"b", [2]⟩] (by decide)).2.2.2.2 (by decide)⟩

/-- Decimal decoding of a digit string, used to invert `Nat.repr`. -/
def decodeDigits (a : Nat) : List Char → Nat
  | [] => a
  | c :: cs => decodeDigits (a * 10 + (c.toNat - 48)) cs

theorem decodeDigits_append (a : Nat) (xs ys : List Char) :
    decodeDigits a (xs ++ ys) = decodeDigits (decodeDigits a xs) ys := by
  induction xs generalizing a with
  | nil => rfl
  | cons c cs ih =>
      show decodeDigits (a * 10 + (c.toNat - 48)) (cs ++ ys) =
        decodeDigits (decodeDigits a (c :: cs)) ys
      rw [ih]
      rfl

theorem toDigitsCore_append (b fuel n : Nat) (ds : List Char) :
    Nat.toDigitsCore b fuel n ds = Nat.toDigitsCore b fuel n [] ++ ds := by
  induction fuel generalizing n ds with
  | zero => simp [Nat.toDigitsCore]
  | succ fuel ih =>
      simp only [Nat.toDigitsCore]
      by_cases h : n / b = 0
      · simp [h]
      · simp only [h, if_false]
        rw [ih (n / b) [Nat.digitChar (n % b)], ih (n / b) (Nat.digitChar (n % b) :: ds),
          List.append_assoc]
        rfl

theorem digitChar_decode : ∀ d : Nat, d < 10 → (Nat.digitChar d).toNat - 48 = d := by
  decide

theorem decode_toDigitsCore (fuel n : Nat) (hfuel : n < fuel) :
    decodeDigits 0 (Nat.toDigitsCore 10 fuel n []) = n := by
  induction fuel generalizing n with
  | zero => omega
  | succ fuel ih =>
      simp only [Nat.toDigitsCore]
      by_cases h : n / 10 = 0
      · rw [if_pos h]
        show 0 * 10 + ((Nat.digitChar (n % 10)).toNat - 48) = n
        rw [digitChar_decode (n % 10) (Nat.mod_lt n (by omega))]
        omega
      · rw [if_neg h, toDigitsCore_append, decodeDigits_append]
        have hdivlt : n / 10 < fuel := by
          have h1 : n / 10 < n := Nat.div_lt_self (by omega) (by omega)
          omega
        rw [ih (n / 10) hdivlt]
        show n / 10 * 10 + ((Nat.digitChar (n % 10)).toNat - 48) = n
        rw [digitChar_decode (n % 10) (Nat.mod_lt n (by omega))]
        omega

theorem decode_toDigits (n : Nat) : decodeDigits 0 (Nat.toDigits 10 n) = n :=
  decode_toDigitsCore (n + 1) n (Nat.lt_succ_self n)

theorem repr_nat_inj {n m : Nat} (h : Nat.repr n = Nat.repr m) : n = m := by
  have hdata : Nat.toDigits 10 n = Nat.toDigits 10 m := by
    have hd := congrArg String.data h
    simpa [Nat.repr, List.asString] using hd
  rw [← decode_toDigits n, ← decode_toDigits m, hdata]

theorem string_data_append (a b : String) : (a ++ b).data = a.data ++ b.data := by
  cases a
  cases b
  rfl

theorem counter_suffix_inj (name ext : String) {n m : Nat}
    (h : name ++ "_" ++ Nat.repr n ++ ext = name ++ "_" ++ Nat.repr m ++ ext) : n = m := by
  have hd := congrArg String.data h
  simp only [string_data_append] at hd
  have h1 := List.append_cancel_right hd
  have h2 := List.append_cancel_left h1
  exact repr_nat_inj (String.ext h2)

/-- The path `q` is a leading part (ancestor-or-self) of the path `p`. -/
def pfx (q p : Path) : Prop := p.take q.length = q

theorem pfx_refl (p : Path) : pfx p p := List.take_length p

theorem pfx_append (p r : Path) : pfx p (p ++ r) := List.take_left p r

theorem pfx_iff (q p : Path) : pfx q p ↔ ∃ r, q ++ r = p := by
  constructor
  · intro h
    refine ⟨p.drop q.length, ?_⟩
    have hsplit := List.take_append_drop q.length p
    rw [h] at hsplit
    exact hsplit
  · rintro ⟨r, rfl⟩
    exact pfx_append q r

theorem pfx_length {q p : Path} (h : pfx q p) : q.length ≤ p.length := by
  obtain ⟨r, rfl⟩ := (pfx_iff q p).mp h
  simp

theorem pfx_trans {a b c : Path} (h1 : pfx a b) (h2 : pfx b c) : pfx a c := by
  obtain ⟨r, rfl⟩ := (pfx_iff a b).mp h1
  obtain ⟨s, rfl⟩ := (pfx_iff _ c).mp h2
  rw [List.append_assoc]
  exact pfx_append a _

theorem pfx_eq_of_length {q p : Path} (h : pfx q p) (hl : p.length ≤ q.length) : q = p := by
  obtain ⟨r, rfl⟩ := (pfx_iff q p).mp h
  rw [List.length_append] at hl
  have hr : r = [] := List.eq_nil_of_length_eq_zero (by omega)
  rw [hr, List.append_nil]

theorem pfx_take (p : Path) (k : Nat) : pfx (p.take k) p := by
  unfold pfx
  rw [List.length_take]
  by_cases hk : k ≤ p.length
  · rw [Nat.min_eq_left hk]
  · push_neg at hk
    rw [Nat.min_eq_right (by omega), List.take_length, List.take_of_length_le (by omega)]

theorem pfx_total {a b c : Path} (ha : pfx a c) (hb : pfx b c) (hl : a.length ≤ b.length) :
    pfx a b := by
  obtain ⟨s, hs⟩ := (pfx_iff b c).mp hb
  unfold pfx
  have h2 : c.take a.length = b.take a.length := by
    rw [← hs, List.take_append_of_le_length hl]
  rw [← h2]
  exact ha

theorem pfx_dropLast (p : Path) : pfx p.dropLast p := by
  rw [List.dropLast_eq_take]
  exact pfx_take p _

theorem pfx_lt {q p : Path} (h : pfx q p) (hne : q ≠ p) : q.length < p.length := by
  rcases Nat.lt_or_ge q.length p.length with hlt | hge
  · exact hlt
  · exact absurd (pfx_eq_of_length h hge) hne

/-- Python `os.path.exists` on the model: the path is a file or a directory. -/
def existsPath (fs : FS) (p : Path) : Bool :=
  decide (p ∈ fs.files) || decide (p ∈ fs.dirs)

theorem existsPath_iff {fs : FS} {p : Path} :
    existsPath fs p = true ↔ p ∈ fs.files ∨ p ∈ fs.dirs := by
  unfold existsPath
  simp

theorem existsPath_false_iff {fs : FS} {p : Path} :
    existsPath fs p = false ↔ p ∉ fs.files ∧ p ∉ fs.dirs := by
  unfold existsPath
  simp

/-- Removal of one path from a path list (Python file/dir deletion). -/
def rmP (l : List Path) (p : Path) : List Path :=
  l.filter (fun q => decide (q ≠ p))

theorem mem_rmP {l : List Path} {p x : Path} : x ∈ rmP l p ↔ x ∈ l ∧ x ≠ p := by
  unfold rmP
  rw [List.mem_filter]
  simp

/-- Python `shutil.move src dst` in the model: the file vanishes from `src`
and appears at `dst` (a file already at `dst` would be overwritten). -/
def moveFile (fs : FS) (src dst : Path) : FS :=
  ⟨dst :: rmP (rmP fs.files src) dst, fs.dirs⟩

/-- Python `shutil.copy2 src dst`: the content appears at `dst` (overwriting)
and `src` is untouched. -/
def copyFile (fs : FS) (src dst : Path) : FS :=
  ⟨dst :: rmP fs.files dst, fs.dirs⟩

/-- Python `os.remove p`. -/
def removeFile (fs : FS) (p : Path) : FS :=
  ⟨rmP fs.files p, fs.dirs⟩

/-- Python `os.rmdir p` (only called on empty directories). -/
def removeDir (fs : FS) (p : Path) : FS :=
  ⟨fs.files, rmP fs.dirs p⟩

/-- One directory-creation step of `os.makedirs`. -/
def addDir (dirs : List Path) (q : Path) : List Path :=
  if q ∈ dirs then dirs else dirs ++ [q]

/-- Python `os.makedirs p (exist_ok := True)`: create every missing ancestor
of `p` and `p` itself.  A regular file already sitting at one of these paths
would make Python raise; that collision is outside the model. -/
def makedirs (fs : FS) (p : Path) : FS :=
  ⟨fs.files, p.inits.foldl addDir fs.dirs⟩

/-- The candidate destination `dir/<name>_<N><ext>` built by the
`get_unique_path` loop. -/
def pCand (dir : Path) (name ext : String) (n : Nat) : Path :=
  dir ++ [name ++ "_" ++ Nat.repr n ++ ext]

theorem pCand_inj (dir : Path) (name ext : String) {n m : Nat}
    (h : pCand dir name ext n = pCand dir name ext m) : n = m := by
  unfold pCand at h
  have h1 := List.append_cancel_left h
  exact counter_suffix_inj name ext (by simpa using h1)

/-- The `while os.path.exists(path)` loop of `get_unique_path`: try
`<name>_<counter><ext>`, `<name>_<counter+1><ext>`, ... until a free path is
found.  The fuel argument only realises in Lean the termination that the
finite filesystem guarantees in Python (the fuel used is always
sufficient). -/
def uniqueLoop (fs : FS) (dir : Path) (name ext : String) : Nat → Nat → Path
  | counter, 0 => pCand dir name ext counter
  | counter, fuel+1 =>
      if existsPath fs (pCand dir name ext counter) = true then
        uniqueLoop fs dir name ext (counter+1) fuel
      else pCand dir name ext counter

/-- `FileOperations.get_unique_path`: the path itself when nothing exists
there, otherwise the first free `<name>_<N><ext>` in the same directory. -/
def get_unique_path (fs : FS) (p : Path) : Path :=
  if existsPath fs p = true then
    uniqueLoop fs p.dropLast (splitext (p.getLastD "")).1 (splitext (p.getLastD "")).2 1
      (fs.files.length + fs.dirs.length + 1)
  else p

theorem uniqueLoop_spec (fs : FS) (dir : Path) (name ext : String) :
    ∀ (fuel counter : Nat),
      (∃ k, k < fuel ∧ existsPath fs (pCand dir name ext (counter + k)) = false) →
      ∃ j, j < fuel ∧
        uniqueLoop fs dir name ext counter fuel = pCand dir name ext (counter + j) ∧
        existsPath fs (pCand dir name ext (counter + j)) = false ∧
        ∀ i, i < j → existsPath fs (pCand dir name ext (counter + i)) = true := by
  intro fuel
  induction fuel with
  | zero =>
      rintro counter ⟨k, hk, -⟩
      omega
  | succ fuel ih =>
      rintro counter ⟨k, hk, hfree⟩
      have hstep : uniqueLoop fs dir name ext counter (fuel+1) =
          if existsPath fs (pCand dir name ext counter) = true then
            uniqueLoop fs dir name ext (counter+1) fuel
          else pCand dir name ext counter := rfl
      by_cases hc : existsPath fs (pCand dir name ext counter) = true
      · have hk0 : k ≠ 0 := by
          intro h0
          rw [h0, Nat.add_zero] at hfree
          rw [hfree] at hc
          exact Bool.false_ne_true hc
        obtain ⟨j, hj, heq, hfr, hall⟩ := ih (counter+1) ⟨k-1, by omega, by
          have hck : counter + 1 + (k-1) = counter + k := by omega
          rw [hck]
          exact hfree⟩
        refine ⟨j+1, by omega, ?_, ?_, ?_⟩
        · rw [hstep, if_pos hc, heq]
          congr 1
          omega
        · have hces : counter + (j+1) = counter + 1 + j := by omega
          rw [hces]
          exact hfr
        · intro i hi
          cases i with
          | zero => simpa using hc
          | succ i2 =>
              have hi2 : counter + (i2+1) = counter + 1 + i2 := by omega
              rw [hi2]
              exact hall i2 (by omega)
      · refine ⟨0, by omega, ?_, ?_, ?_⟩
        · rw [hstep, if_neg hc, Nat.add_zero]
        · rw [Nat.add_zero]
          exact Bool.eq_false_iff.mpr hc
        · intro i hi
          omega

theorem exists_free_cand (fs : FS) (dir : Path) (name ext : String) (counter : Nat) :
    ∃ k, k < fs.files.length + fs.dirs.length + 1 ∧
      existsPath fs (pCand dir name ext (counter + k)) = false := by
  by_contra hcon
  push_neg at hcon
  have hall : ∀ k, k < fs.files.length + fs.dirs.length + 1 →
      pCand dir name ext (counter + k) ∈ fs.files ++ fs.dirs := by
    intro k hk
    have h1 := hcon k hk
    have h2 : existsPath fs (pCand dir name ext (counter + k)) = true := by
      cases hb : existsPath fs (pCand dir name ext (counter + k)) with
      | false => exact absurd hb h1
      | true => rfl
    rw [List.mem_append]
    exact existsPath_iff.mp h2
  have hinj : Function.Injective (fun k => pCand dir name ext (counter + k)) := by
    intro a b hab
    have := pCand_inj dir name ext hab
    omega
  have hnd : ((List.range (fs.files.length + fs.dirs.length + 1)).map
      (fun k => pCand dir name ext (counter + k))).Nodup :=
    (List.nodup_range _).map hinj
  have hsub : ((List.range (fs.files.length + fs.dirs.length + 1)).map
      (fun k => pCand dir name ext (counter + k))) ⊆ fs.files ++ fs.dirs := by
    intro x hx
    obtain ⟨k, hk, rfl⟩ := List.mem_map.mp hx
    exact hall k (List.mem_range.mp hk)
  have hle := (hnd.subperm hsub).length_le
  rw [List.length_map, List.length_range, List.length_append] at hle
  omega

theorem get_unique_path_free (fs : FS) (p : Path) :
    existsPath fs (get_unique_path fs p) = false := by
  unfold get_unique_path
  by_cases h : existsPath fs p = true
  · rw [if_pos h]
    obtain ⟨j, hj, heq, hfree, -⟩ :=
      uniqueLoop_spec fs p.dropLast (splitext (p.getLastD "")).1 (splitext (p.getLastD "")).2
        (fs.files.length + fs.dirs.length + 1) 1
        (exists_free_cand fs p.dropLast (splitext (p.getLastD "")).1
          (splitext (p.getLastD "")).2 1)
    rw [heq]
    exact hfree
  · rw [if_neg h]
    exact Bool.eq_false_iff.mpr h

/-- C5: `get_unique_path` returns its argument unchanged when nothing exists
at that path; otherwise the first free `<name>_<N><ext>` (N from 1) in the
same directory, so its result never points at an existing file; it is
deterministic on an unchanged filesystem, and once a file is created at the
returned path a further call returns a different path. -/
theorem get_unique_path_spec (fs : FS) (p : Path) :
    (existsPath fs p = false → get_unique_path fs p = p) ∧
    (existsPath fs p = true →
      ∃ n, 1 ≤ n ∧
        get_unique_path fs p =
          pCand p.dropLast (splitext (p.getLastD "")).1 (splitext (p.getLastD "")).2 n ∧
        ∀ m, 1 ≤ m → m < n →
          existsPath fs
            (pCand p.dropLast (splitext (p.getLastD "")).1 (splitext (p.getLastD "")).2 m)
            = true) ∧
    existsPath fs (get_unique_path fs p) = false ∧
    get_unique_path ⟨get_unique_path fs p :: fs.files, fs.dirs⟩ p ≠ get_unique_path fs p := by
  refine ⟨?_, ?_, get_unique_path_free fs p, ?_⟩
  · intro h
    unfold get_unique_path
    rw [if_neg (by rw [h]; exact Bool.false_ne_true)]
  · intro h
    unfold get_unique_path
    rw [if_pos h]
    obtain ⟨j, hj, heq, hfree, hall⟩ :=
      uniqueLoop_spec fs p.dropLast (splitext (p.getLastD "")).1 (splitext (p.getLastD "")).2
        (fs.files.length + fs.dirs.length + 1) 1
        (exists_free_cand fs p.dropLast (splitext (p.getLastD "")).1
          (splitext (p.getLastD "")).2 1)
    refine ⟨1 + j, by omega, heq, ?_⟩
    intro m hm1 hmn
    have hm : m = 1 + (m - 1) := by omega
    rw [hm]
    exact hall (m - 1) (by omega)
  · intro hcontra
    have hfree2 := get_unique_path_free ⟨get_unique_path fs p :: fs.files, fs.dirs⟩ p
    rw [hcontra] at hfree2
    rw [existsPath_false_iff] at hfree2
    exact hfree2.1 (List.mem_cons_self _ _)

theorem get_unique_path_spec_witness :
    (get_unique_path ⟨[["d", "a.txt"], ["d", "a_1.txt"]], []⟩ ["d", "b.txt"] = ["d", "b.txt"]) ∧
      (∃ n, 1 ≤ n ∧
        get_unique_path ⟨[["d", "a.txt"], ["d", "a_1.txt"]], []⟩ ["d", "a.txt"] =
          pCand ["d"] (splitext "a.txt").1 (splitext "a.txt").2 n ∧
        ∀ m, 1 ≤ m → m < n →
          existsPath ⟨[["d", "a.txt"], ["d", "a_1.txt"]], []⟩
            (pCand ["d"] (splitext "a.txt").1 (splitext "a.txt").2 m) = true) :=
  ⟨(get_unique_path_spec ⟨[["d", "a.txt"], ["d", "a_1.txt"]], []⟩ ["d", "b.txt"]).1 (by decide),
   (get_unique_path_spec ⟨[["d", "a.txt"], ["d", "a_1.txt"]], []⟩ ["d", "a.txt"]).2.1 (by decide)⟩

/-- The kind of a recorded undo-log entry. -/
inductive OpKind
  | move
  | copy
deriving DecidableEq, Repr

/-- An undo-log entry `(kind, source_path, destination_path)`. -/
structure Op where
  kind : OpKind
  src : Path
  dst : Path
deriving DecidableEq, Repr

/-- Python `os.path.join folder part` for one component: joining the empty
string leaves the path unchanged (up to a trailing separator that the next
join absorbs); components containing a separator are outside the model. -/
def pjoin (p : Path) (part : String) : Path :=
  if part = "" then p else p ++ [part]

theorem pfx_pjoin (p : Path) (c : String) : pfx p (pjoin p c) := by
  unfold pjoin
  split
  · exact pfx_refl p
  · exact pfx_append p [c]

/-- The destination directory computed by `_process_single_file`:
`<folder>/<category>(/<date>)` when `create_folders` is set, else the
top-level folder itself (Python then joins it with the filename to get the
candidate destination, in both cases). -/
def psfDestFolder (dateOf : Path → String) (folder : Path) (custom_tags : List String)
    (organize_by_date create_folders : Bool) (ma : List (String × String))
    (ft : List (String × List String)) (filename : String) : Path :=
  if create_folders then
    if organize_by_date then
      pjoin (pjoin folder (classify ma custom_tags ft filename)) (dateOf (folder ++ [filename]))
    else pjoin folder (classify ma custom_tags ft filename)
  else folder

/-- The filesystem state after the `os.makedirs` call of
`_process_single_file` (unchanged when `create_folders` is off). -/
def psfState (dateOf : Path → String) (fs : FS) (folder : Path) (custom_tags : List String)
    (organize_by_date create_folders : Bool) (ma : List (String × String))
    (ft : List (String × List String)) (filename : String) : FS :=
  if create_folders then
    makedirs fs (psfDestFolder dateOf folder custom_tags organize_by_date create_folders
      ma ft filename)
  else fs

/-- The final destination path computed by `_process_single_file` (after
`get_unique_path`). -/
def psfDest (dateOf : Path → String) (fs : FS) (folder : Path) (custom_tags : List String)
    (organize_by_date create_folders : Bool) (ma : List (String × String))
    (ft : List (String × List String)) (filename : String) : Path :=
  get_unique_path
    (psfState dateOf fs folder custom_tags organize_by_date create_folders ma ft filename)
    (psfDestFolder dateOf folder custom_tags organize_by_date create_folders ma ft filename
      ++ [filename])

/-- `FileOperations._process_single_file` (lines 241-288): on a per-file
exception (`fails filename`, modelled as raised before any filesystem
effect) return `(None, False)`; otherwise classify the file, build the
destination directory and create it when `create_folders` is set
(`psfDestFolder` and `psfState` above), uniquify the destination path, and
move or copy unless the final destination equals the source (Python's
`return None, True` skip branch).  `dateOf` is the `get_date_folder` oracle
(mtime formatted YYYY-MM, or "Unknown-Date"). -/
def processSingleFile (dateOf : Path → String) (fails : String → Bool) (fs : FS)
    (folder : Path) (custom_tags : List String)
    (organize_by_date create_folders move_files : Bool)
    (manual_assignments : List (String × String)) (file_types : List (String × List String))
    (filename : String) : FS × Option Op × Bool :=
  if fails filename then (fs, none, false)
  else
    let file_path := folder ++ [filename]
    let fs1 := psfState dateOf fs folder custom_tags organize_by_date create_folders
      manual_assignments file_types filename
    let dest_path := get_unique_path fs1
      (psfDestFolder dateOf folder custom_tags organize_by_date create_folders
        manual_assignments file_types filename ++ [filename])
    if file_path ≠ dest_path then
      if move_files then
        (moveFile fs1 file_path dest_path, some ⟨OpKind.move, file_path, dest_path⟩, true)
      else
        (copyFile fs1 file_path dest_path, some ⟨OpKind.copy, file_path, dest_path⟩, true)
    else (fs1, none, true)

/-- The result of an organize run: filesystem, organized count, error list
and undo log. -/
structure OrgResult where
  fs : FS
  organized : Nat
  errors : List String
  ops : List Op
deriving Repr

/-- The collection step of `organize_files`: on success append the returned
operation (when there is one) and count the file; on `(None, False)` append
"<filename>: Operation failed".  The skip branch `(None, True)` would append
Python's `None` to the log; it is unreachable while the source file exists
(`get_unique_path` never returns an occupied path), and the model appends
nothing there. -/
def organizeStep (dateOf : Path → String) (fails : String → Bool) (folder : Path)
    (custom_tags : List String) (organize_by_date create_folders move_files : Bool)
    (manual_assignments : List (String × String)) (file_types : List (String × List String))
    (st : OrgResult) (filename : String) : OrgResult :=
  let r := processSingleFile dateOf fails st.fs folder custom_tags organize_by_date
    create_folders move_files manual_assignments file_types filename
  if r.2.2 then
    ⟨r.1, st.organized + 1, st.errors, st.ops ++ r.2.1.toList⟩
  else
    ⟨r.1, st.organized, st.errors ++ [filename ++ ": Operation failed"], st.ops⟩

/-- `FileOperations.organize_files`, with the worker pool serialised in
submission order: list the candidates once, then process and collect each
file.  Cancellation and the progress/status callbacks are not modelled. -/
def organize_files (dateOf : Path → String) (fails : String → Bool) (sz : Path → Nat)
    (fs : FS) (folder : Path) (custom_tags : List String)
    (organize_by_date create_folders move_files skip_hidden : Bool)
    (manual_assignments : List (String × String)) (file_types : List (String × List String))
    (min_size_bytes : Nat) (max_size_bytes : Option Nat) : OrgResult :=
  let files := get_files_in_folder fs sz folder skip_hidden min_size_bytes max_size_bytes
  files.foldl
    (organizeStep dateOf fails folder custom_tags organize_by_date create_folders move_files
      manual_assignments file_types)
    ⟨fs, 0, [], []⟩

/-- The state of the first (log-replay) pass of `undo_operations`. -/
structure UndoPassState where
  fs : FS
  undone : Nat
  touched : List Path
deriving Repr

/-- One entry of the first pass of `undo_operations`: a `move` whose
destination still exists is moved back to its source, a `copy` whose
destination still exists is deleted, and an entry whose destination no
longer exists is skipped silently; on action the destination's parent
directory is tracked for cleanup.  The modelled filesystem primitives are
total, so the per-entry `except` never fires. -/
def undoStep (st : UndoPassState) (op : Op) : UndoPassState :=
  match op.kind with
  | OpKind.move =>
      if existsPath st.fs op.dst = true then
        ⟨moveFile st.fs op.dst op.src, st.undone + 1, st.touched ++ [op.dst.dropLast]⟩
      else st
  | OpKind.copy =>
      if existsPath st.fs op.dst = true then
        ⟨removeFile st.fs op.dst, st.undone + 1, st.touched ++ [op.dst.dropLast]⟩
      else st

/-- The `for operation_type, source, destination in reversed(operations)`
pass of `undo_operations`. -/
def undoPass1 (fs : FS) (ops : List Op) : UndoPassState :=
  ops.reverse.foldl undoStep ⟨fs, 0, []⟩

/-- Python `os.listdir d != []` in the model: some file or directory lies
directly inside `d`. -/
def dirNonempty (fs : FS) (d : Path) : Bool :=
  fs.files.any (fun q => decide (q ≠ [] ∧ q.dropLast = d)) ||
    fs.dirs.any (fun q => decide (q ≠ [] ∧ q.dropLast = d))

/-- The `while current_folder and os.path.exists(current_folder)` walk of
the cleanup pass: remove the directory while it exists and is empty, then
continue with its parent; stop at the first non-empty or missing directory.
When the existing path is not a directory, Python's `os.listdir` raises
`NotADirectoryError`, which the surrounding `except` catches, aborting this
walk (the recorded error string is not modelled).  The fuel
(`current.length + 1` at the call site) only realises the walk's termination
at the filesystem root. -/
def walkUp : FS → Path → Nat → FS × List Path
  | fs, _, 0 => (fs, [])
  | fs, current, fuel+1 =>
      if current = [] then (fs, [])
      else if existsPath fs current = false then (fs, [])
      else if decide (current ∈ fs.dirs) = false then (fs, [])
      else if dirNonempty fs current = true then (fs, [])
      else
        let fs' := removeDir fs current
        let r := walkUp fs' current.dropLast fuel
        (r.1, current :: r.2)

/-- The result of `undo_operations`: filesystem, undone count, error list,
removed folders. -/
structure UndoResult where
  fs : FS
  undone : Nat
  errors : List String
  removed : List Path
deriving Repr

/-- `FileOperations.undo_operations`: replay the log in reverse, then remove
empty folders walking up from each touched destination directory.
`folders_to_check` is a Python set, iterated here in first-insertion order;
the theorems only use order-insensitive consequences.  The modelled
filesystem primitives are total, so the error list is always empty. -/
def undo_operations (fs : FS) (ops : List Op) : UndoResult :=
  let st := undoPass1 fs ops
  let folders := st.touched.dedup
  let r := folders.foldl
    (fun acc d =>
      let w := walkUp acc.1 d (d.length + 1)
      (w.1, acc.2 ++ w.2))
    (st.fs, ([] : List Path))
  ⟨r.1, st.undone, [], r.2⟩

theorem mem_moveFile {fs : FS} {s d p : Path} :
    p ∈ (moveFile fs s d).files ↔ p = d ∨ (p ∈ fs.files ∧ p ≠ s ∧ p ≠ d) := by
  unfold moveFile
  simp only [List.mem_cons, mem_rmP]
  tauto

theorem mem_copyFile {fs : FS} {s d p : Path} :
    p ∈ (copyFile fs s d).files ↔ p = d ∨ (p ∈ fs.files ∧ p ≠ d) := by
  unfold copyFile
  simp only [List.mem_cons, mem_rmP]

theorem mem_removeFile {fs : FS} {q p : Path} :
    p ∈ (removeFile fs q).files ↔ p ∈ fs.files ∧ p ≠ q := mem_rmP

theorem moveFile_dirs (fs : FS) (s d : Path) : (moveFile fs s d).dirs = fs.dirs := rfl

theorem copyFile_dirs (fs : FS) (s d : Path) : (copyFile fs s d).dirs = fs.dirs := rfl

theorem removeFile_dirs (fs : FS) (q : Path) : (removeFile fs q).dirs = fs.dirs := rfl

theorem makedirs_files (fs : FS) (p : Path) : (makedirs fs p).files = fs.files := rfl

theorem mem_addDir {acc : List Path} {x d : Path} :
    d ∈ addDir acc x ↔ d ∈ acc ∨ d = x := by
  unfold addDir
  split
  · next h =>
      constructor
      · exact Or.inl
      · rintro (hd | rfl)
        · exact hd
        · exact h
  · simp

theorem mem_foldl_addDir (l : List Path) (acc : List Path) (d : Path) :
    d ∈ l.foldl addDir acc ↔ d ∈ acc ∨ d ∈ l := by
  induction l generalizing acc with
  | nil => simp
  | cons x rest ih =>
      rw [List.foldl_cons, ih, mem_addDir]
      simp only [List.mem_cons]
      tauto

theorem mem_makedirs_dirs {fs : FS} {p d : Path} :
    d ∈ (makedirs fs p).dirs ↔ d ∈ fs.dirs ∨ d ∈ p.inits := mem_foldl_addDir _ _ _

theorem nodup_addDir {acc : List Path} (h : acc.Nodup) (x : Path) : (addDir acc x).Nodup := by
  unfold addDir
  split
  · exact h
  · next hx =>
      rw [List.nodup_append]
      refine ⟨h, by simp, ?_⟩
      intro a ha hb
      simp only [List.mem_singleton] at hb
      exact hx (hb ▸ ha)

theorem nodup_foldl_addDir (l : List Path) {acc : List Path} (h : acc.Nodup) :
    (l.foldl addDir acc).Nodup := by
  induction l generalizing acc with
  | nil => exact h
  | cons x rest ih => exact ih (nodup_addDir h x)

theorem uniqueLoop_dropLast (fs : FS) (dir : Path) (name ext : String) :
    ∀ (fuel counter : Nat), (uniqueLoop fs dir name ext counter fuel).dropLast = dir := by
  intro fuel
  induction fuel with
  | zero =>
      intro counter
      exact List.dropLast_concat
  | succ fuel ih =>
      intro counter
      show (if existsPath fs (pCand dir name ext counter) = true then
          uniqueLoop fs dir name ext (counter+1) fuel
        else pCand dir name ext counter).dropLast = dir
      split
      · exact ih (counter + 1)
      · exact List.dropLast_concat

theorem get_unique_path_dropLast (fs : FS) (p : Path) :
    (get_unique_path fs p).dropLast = p.dropLast := by
  unfold get_unique_path
  split
  · exact uniqueLoop_dropLast fs _ _ _ _ 1
  · rfl

theorem psfState_files (dateOf : Path → String) (fs : FS) (folder : Path)
    (custom_tags : List String) (organize_by_date create_folders : Bool)
    (ma : List (String × String)) (ft : List (String × List String)) (filename : String) :
    (psfState dateOf fs folder custom_tags organize_by_date create_folders
      ma ft filename).files = fs.files := by
  unfold psfState
  split <;> rfl

theorem psfState_dirs (dateOf : Path → String) (fs : FS) (folder : Path)
    (custom_tags : List String) (organize_by_date create_folders : Bool)
    (ma : List (String × String)) (ft : List (String × List String)) (filename : String)
    (d : Path) :
    d ∈ (psfState dateOf fs folder custom_tags organize_by_date create_folders
        ma ft filename).dirs ↔
      d ∈ fs.dirs ∨ (create_folders = true ∧
        d ∈ (psfDestFolder dateOf folder custom_tags organize_by_date create_folders
          ma ft filename).inits) := by
  unfold psfState
  split
  · next h => rw [mem_makedirs_dirs]; simp [h]
  · next h => simp [h]

theorem pfx_psfDestFolder (dateOf : Path → String) (folder : Path)
    (custom_tags : List String) (organize_by_date create_folders : Bool)
    (ma : List (String × String)) (ft : List (String × List String)) (filename : String) :
    pfx folder (psfDestFolder dateOf folder custom_tags organize_by_date create_folders
      ma ft filename) := by
  unfold psfDestFolder
  split
  · split
    · exact pfx_trans (pfx_pjoin folder _) (pfx_pjoin _ _)
    · exact pfx_pjoin folder _
  · exact pfx_refl folder

theorem psfDest_spec (dateOf : Path → String) (fs : FS) (folder : Path)
    (custom_tags : List String) (organize_by_date create_folders : Bool)
    (ma : List (String × String)) (ft : List (String × List String)) (filename : String)
    (hsrc : folder ++ [filename] ∈ fs.files) :
    psfDest dateOf fs folder custom_tags organize_by_date create_folders ma ft filename
        ∉ fs.files ∧
      psfDest dateOf fs folder custom_tags organize_by_date create_folders ma ft filename
        ∉ (psfState dateOf fs folder custom_tags organize_by_date create_folders
          ma ft filename).dirs ∧
      psfDest dateOf fs folder custom_tags organize_by_date create_folders ma ft filename
        ≠ folder ++ [filename] ∧
      (psfDest dateOf fs folder custom_tags organize_by_date create_folders
          ma ft filename).dropLast =
        psfDestFolder dateOf folder custom_tags organize_by_date create_folders
          ma ft filename := by
  have hfree := get_unique_path_free
    (psfState dateOf fs folder custom_tags organize_by_date create_folders ma ft filename)
    (psfDestFolder dateOf folder custom_tags organize_by_date create_folders ma ft filename
      ++ [filename])
  rw [existsPath_false_iff, psfState_files] at hfree
  have h1 : psfDest dateOf fs folder custom_tags organize_by_date create_folders ma ft filename
      ∉ fs.files := hfree.1
  have h2 : psfDest dateOf fs folder custom_tags organize_by_date create_folders ma ft filename
      ∉ (psfState dateOf fs folder custom_tags organize_by_date create_folders
        ma ft filename).dirs := hfree.2
  refine ⟨h1, h2, ?_, ?_⟩
  · intro hcontra
    exact h1 (hcontra ▸ hsrc)
  · unfold psfDest
    rw [get_unique_path_dropLast, List.dropLast_concat]

theorem processSingleFile_fails_eq (dateOf : Path → String) (fails : String → Bool) (fs : FS)
    (folder : Path) (custom_tags : List String)
    (organize_by_date create_folders move_files : Bool) (ma : List (String × String))
    (ft : List (String × List String)) (filename : String)
    (h : fails filename = true) :
    processSingleFile dateOf fails fs folder custom_tags organize_by_date create_folders
      move_files ma ft filename = (fs, none, false) := by
  unfold processSingleFile
  rw [if_pos h]

theorem processSingleFile_eq (dateOf : Path → String) (fails : String → Bool) (fs : FS)
    (folder : Path) (custom_tags : List String)
    (organize_by_date create_folders move_files : Bool) (ma : List (String × String))
    (ft : List (String × List String)) (filename : String)
    (hf : fails filename = false) (hsrc : folder ++ [filename] ∈ fs.files) :
    processSingleFile dateOf fails fs folder custom_tags organize_by_date create_folders
        move_files ma ft filename =
      (if move_files then
        (moveFile (psfState dateOf fs folder custom_tags organize_by_date create_folders
            ma ft filename)
          (folder ++ [filename])
          (psfDest dateOf fs folder custom_tags organize_by_date create_folders ma ft filename),
         some ⟨OpKind.move, folder ++ [filename],
           psfDest dateOf fs folder custom_tags organize_by_date create_folders ma ft filename⟩,
         true)
      else
        (copyFile (psfState dateOf fs folder custom_tags organize_by_date create_folders
            ma ft filename)
          (folder ++ [filename])
          (psfDest dateOf fs folder custom_tags organize_by_date create_folders ma ft filename),
         some ⟨OpKind.copy, folder ++ [filename],
           psfDest dateOf fs folder custom_tags organize_by_date create_folders ma ft filename⟩,
         true)) := by
  obtain ⟨-, -, hne, -⟩ := psfDest_spec dateOf fs folder custom_tags organize_by_date
    create_folders ma ft filename hsrc
  unfold processSingleFile
  rw [if_neg (by simp [hf])]
  dsimp only
  rw [if_pos (show folder ++ [filename] ≠
    get_unique_path
      (psfState dateOf fs folder custom_tags organize_by_date create_folders ma ft filename)
      (psfDestFolder dateOf folder custom_tags organize_by_date create_folders ma ft filename
        ++ [filename]) from fun hcontra => hne hcontra.symm)]
  rfl

theorem processSingleFile_snd_true (dateOf : Path → String) (fails : String → Bool) (fs : FS)
    (folder : Path) (custom_tags : List String)
    (organize_by_date create_folders move_files : Bool) (ma : List (String × String))
    (ft : List (String × List String)) (filename : String)
    (h : fails filename = false) :
    (processSingleFile dateOf fails fs folder custom_tags organize_by_date create_folders
      move_files ma ft filename).2.2 = true := by
  unfold processSingleFile
  rw [if_neg (by simp [h])]
  dsimp only
  split <;> (try split) <;> rfl

theorem processSingleFile_op (dateOf : Path → String) (fails : String → Bool) (fs : FS)
    (folder : Path) (custom_tags : List String)
    (organize_by_date create_folders move_files : Bool) (ma : List (String × String))
    (ft : List (String × List String)) (filename : String) (op : Op)
    (h : (processSingleFile dateOf fails fs folder custom_tags organize_by_date create_folders
      move_files ma ft filename).2.1 = some op) :
    op.src = folder ++ [filename] ∧ fails filename = false ∧
      op.kind = (if move_files then OpKind.move else OpKind.copy) := by
  revert h
  unfold processSingleFile
  split
  · next hfail =>
      intro h
      exact absurd h (by simp)
  · next hfail =>
      dsimp only
      split
      · split
        · next hmf =>
            intro h
            obtain rfl := Option.some.inj h
            exact ⟨rfl, by simpa using hfail, by simp [hmf]⟩
        · next hmf =>
            intro h
            obtain rfl := Option.some.inj h
            refine ⟨rfl, by simpa using hfail, ?_⟩
            simp [hmf]
      · intro h
        exact absurd h (by simp)

theorem organizeStep_fails (dateOf : Path → String) (fails : String → Bool) (folder : Path)
    (custom_tags : List String) (organize_by_date create_folders move_files : Bool)
    (ma : List (String × String)) (ft : List (String × List String))
    (f : FS) (n : Nat) (e : List String) (o : List Op) (x : String) (hx : fails x = true) :
    organizeStep dateOf fails folder custom_tags organize_by_date create_folders move_files
        ma ft ⟨f, n, e, o⟩ x =
      ⟨f, n, e ++ [x ++ ": Operation failed"], o⟩ := by
  unfold organizeStep
  rw [processSingleFile_fails_eq dateOf fails f folder custom_tags organize_by_date
    create_folders move_files ma ft x hx]
  dsimp only
  rw [if_neg (by simp)]

theorem organizeStep_success (dateOf : Path → String) (fails : String → Bool) (folder : Path)
    (custom_tags : List String) (organize_by_date create_folders move_files : Bool)
    (ma : List (String × String)) (ft : List (String × List String))
    (f : FS) (n : Nat) (e : List String) (o : List Op) (x : String) (hx : fails x = false) :
    organizeStep dateOf fails folder custom_tags organize_by_date create_folders move_files
        ma ft ⟨f, n, e, o⟩ x =
      ⟨(processSingleFile dateOf fails f folder custom_tags organize_by_date create_folders
          move_files ma ft x).1,
       n + 1, e,
       o ++ (processSingleFile dateOf fails f folder custom_tags organize_by_date
          create_folders move_files ma ft x).2.1.toList⟩ := by
  unfold organizeStep
  dsimp only
  rw [if_pos (processSingleFile_snd_true dateOf fails f folder custom_tags organize_by_date
    create_folders move_files ma ft x hx)]

theorem orgFold_facts (dateOf : Path → String) (fails : String → Bool) (folder : Path)
    (custom_tags : List String) (organize_by_date create_folders move_files : Bool)
    (ma : List (String × String)) (ft : List (String × List String)) :
    ∀ (l : List String) (fs0 : FS) (n : Nat) (e : List String) (o : List Op),
      (l.foldl (organizeStep dateOf fails folder custom_tags organize_by_date create_folders
          move_files ma ft) ⟨fs0, n, e, o⟩).errors =
        e ++ (l.filter (fun f => fails f)).map (fun f => f ++ ": Operation failed") ∧
      (l.foldl (organizeStep dateOf fails folder custom_tags organize_by_date create_folders
          move_files ma ft) ⟨fs0, n, e, o⟩).organized =
        n + (l.filter (fun f => !(fails f))).length ∧
      ∀ op ∈ (l.foldl (organizeStep dateOf fails folder custom_tags organize_by_date
          create_folders move_files ma ft) ⟨fs0, n, e, o⟩).ops,
        op ∈ o ∨ ∃ f, f ∈ l ∧ fails f = false ∧ op.src = folder ++ [f] ∧
          op.kind = (if move_files then OpKind.move else OpKind.copy) := by
  intro l
  induction l with
  | nil =>
      intro fs0 n e o
      refine ⟨by simp, by simp, ?_⟩
      intro op hop
      exact Or.inl hop
  | cons x rest ih =>
      intro fs0 n e o
      rw [List.foldl_cons]
      by_cases hx : fails x = true
      · rw [organizeStep_fails dateOf fails folder custom_tags organize_by_date create_folders
          move_files ma ft fs0 n e o x hx]
        obtain ⟨h1, h2, h3⟩ := ih fs0 n (e ++ [x ++ ": Operation failed"]) o
        refine ⟨?_, ?_, ?_⟩
        · rw [h1, List.filter_cons_of_pos hx, List.map_cons, List.append_assoc]
          rfl
        · rw [h2, List.filter_cons_of_neg (by simp [hx])]
        · intro op hop
          rcases h3 op hop with hin | ⟨f, hf, hrest⟩
          · exact Or.inl hin
          · exact Or.inr ⟨f, List.mem_cons_of_mem _ hf, hrest⟩
      · have hx' : fails x = false := by
          cases hb : fails x with
          | false => rfl
          | true => exact absurd hb hx
        rw [organizeStep_success dateOf fails folder custom_tags organize_by_date create_folders
          move_files ma ft fs0 n e o x hx']
        obtain ⟨h1, h2, h3⟩ :=
          ih (processSingleFile dateOf fails fs0 folder custom_tags organize_by_date
            create_folders move_files ma ft x).1 (n + 1) e
            (o ++ (processSingleFile dateOf fails fs0 folder custom_tags organize_by_date
              create_folders move_files ma ft x).2.1.toList)
        refine ⟨?_, ?_, ?_⟩
        · rw [h1, List.filter_cons_of_neg (by simp [hx'])]
        · rw [h2, List.filter_cons_of_pos (by simp [hx']), List.length_cons]
          omega
        · intro op hop
          rcases h3 op hop with hin | ⟨f, hf, hrest⟩
          · rcases List.mem_append.mp hin with hin2 | hin2
            · exact Or.inl hin2
            · refine Or.inr ⟨x, List.mem_cons_self _ _, hx', ?_⟩
              have hsome : (processSingleFile dateOf fails fs0 folder custom_tags
                  organize_by_date create_folders move_files ma ft x).2.1 = some op := by
                cases hopt : (processSingleFile dateOf fails fs0 folder custom_tags
                    organize_by_date create_folders move_files ma ft x).2.1 with
                | none =>
                    rw [hopt] at hin2
                    simp at hin2
                | some op2 =>
                    rw [hopt] at hin2
                    simp only [Option.toList_some, List.mem_singleton] at hin2
                    rw [hin2]
              obtain ⟨hsrc, -, hkind⟩ := processSingleFile_op dateOf fails fs0 folder
                custom_tags organize_by_date create_folders move_files ma ft x op hsome
              exact ⟨hsrc, hkind⟩
          · exact Or.inr ⟨f, List.mem_cons_of_mem _ hf, hrest⟩

/-- C8: a per-file exception is caught, recorded as an error string keyed by
the file's name, and does not abort the batch: the error list is exactly one
entry per failing candidate (in candidate order), every non-failing
candidate is still processed and counted, and the returned undo log contains
only operations of non-failing candidates. -/
theorem organize_error_handling (dateOf : Path → String) (fails : String → Bool)
    (sz : Path → Nat) (fs : FS) (folder : Path) (custom_tags : List String)
    (organize_by_date create_folders move_files skip_hidden : Bool)
    (ma : List (String × String)) (ft : List (String × List String))
    (min_size_bytes : Nat) (max_size_bytes : Option Nat) :
    (organize_files dateOf fails sz fs folder custom_tags organize_by_date create_folders
        move_files skip_hidden ma ft min_size_bytes max_size_bytes).errors =
      ((get_files_in_folder fs sz folder skip_hidden min_size_bytes max_size_bytes).filter
        (fun f => fails f)).map (fun f => f ++ ": Operation failed") ∧
    (organize_files dateOf fails sz fs folder custom_tags organize_by_date create_folders
        move_files skip_hidden ma ft min_size_bytes max_size_bytes).organized =
      ((get_files_in_folder fs sz folder skip_hidden min_size_bytes max_size_bytes).filter
        (fun f => !(fails f))).length ∧
    ∀ op ∈ (organize_files dateOf fails sz fs folder custom_tags organize_by_date
        create_folders move_files skip_hidden ma ft min_size_bytes max_size_bytes).ops,
      ∃ f, f ∈ get_files_in_folder fs sz folder skip_hidden min_size_bytes max_size_bytes ∧
        fails f = false ∧ op.src = folder ++ [f] ∧
        op.kind = (if move_files then OpKind.move else OpKind.copy) := by
  obtain ⟨h1, h2, h3⟩ := orgFold_facts dateOf fails folder custom_tags organize_by_date
    create_folders move_files ma ft
    (get_files_in_folder fs sz folder skip_hidden min_size_bytes max_size_bytes) fs 0 [] []
  refine ⟨by simpa using h1, by simpa using h2, ?_⟩
  intro op hop
  rcases h3 op hop with hin | hgood
  · cases hin
  · exact hgood

theorem concat_inj {folder : Path} {a b : String} (h : folder ++ [a] = folder ++ [b]) :
    a = b := by
  have h1 := List.append_cancel_left h
  simpa using h1

theorem mem_listing_decomp {fs : FS} {folder : Path} (hfolder : folder ≠ []) {p : Path}
    (hp : p ∈ fs.files.filter (fun q => q.dropLast == folder)) :
    p = folder ++ [p.getLastD ""] ∧ p ∈ fs.files := by
  rw [List.mem_filter] at hp
  obtain ⟨hpf, hpd⟩ := hp
  rw [beq_iff_eq] at hpd
  rcases p.eq_nil_or_concat with rfl | ⟨q, b, rfl⟩
  · exact absurd (by simpa using hpd) hfolder
  · rw [List.concat_eq_append] at hpf hpd ⊢
    rw [List.dropLast_concat] at hpd
    subst hpd
    rw [List.getLastD_concat]
    exact ⟨rfl, hpf⟩

theorem get_files_in_folder_mem {fs : FS} {sz : Path → Nat} {folder : Path}
    {skip_hidden : Bool} {minS : Nat} {maxS : Option Nat} (hfolder : folder ≠ [])
    {f : String} (hf : f ∈ get_files_in_folder fs sz folder skip_hidden minS maxS) :
    folder ++ [f] ∈ fs.files := by
  unfold get_files_in_folder at hf
  rw [List.mem_filter] at hf
  obtain ⟨hf2, -⟩ := hf
  have hf3 : f ∈ (fs.files.filter (fun q => q.dropLast == folder)).map
      (fun p => p.getLastD "") := by
    rcases hsh : skip_hidden with - | -
    · rw [hsh] at hf2
      simpa using hf2
    · rw [hsh] at hf2
      simp only [if_true] at hf2
      exact (List.mem_filter.mp hf2).1
  obtain ⟨p, hp, rfl⟩ := List.mem_map.mp hf3
  obtain ⟨hdec, hmem⟩ := mem_listing_decomp hfolder hp
  rwa [← hdec]

theorem get_files_in_folder_nodup {fs : FS} {sz : Path → Nat} {folder : Path}
    {skip_hidden : Bool} {minS : Nat} {maxS : Option Nat}
    (hnd : fs.files.Nodup) (hfolder : folder ≠ []) :
    (get_files_in_folder fs sz folder skip_hidden minS maxS).Nodup := by
  unfold get_files_in_folder
  have h1 : ((fs.files.filter (fun q => q.dropLast == folder)).map
      (fun p => p.getLastD "")).Nodup := by
    refine List.Nodup.map_on ?_ (hnd.filter _)
    intro x hx y hy hxy
    obtain ⟨hdx, -⟩ := mem_listing_decomp hfolder hx
    obtain ⟨hdy, -⟩ := mem_listing_decomp hfolder hy
    rw [hdx, hdy, hxy]
  have h2 : (if skip_hidden then
      ((fs.files.filter (fun q => q.dropLast == folder)).map
        (fun p => p.getLastD "")).filter (fun f => !(startsWithDot f))
    else (fs.files.filter (fun q => q.dropLast == folder)).map
      (fun p => p.getLastD "")).Nodup := by
    split
    · exact h1.filter _
    · exact h1
  exact h2.filter _

theorem psfState_no_create (dateOf : Path → String) (fs : FS) (folder : Path)
    (custom_tags : List String) (organize_by_date : Bool) (ma : List (String × String))
    (ft : List (String × List String)) (filename : String) :
    psfState dateOf fs folder custom_tags organize_by_date false ma ft filename = fs := by
  unfold psfState
  rw [if_neg (by simp)]

theorem psfDestFolder_no_create (dateOf : Path → String) (folder : Path)
    (custom_tags : List String) (organize_by_date : Bool) (ma : List (String × String))
    (ft : List (String × List String)) (filename : String) :
    psfDestFolder dateOf folder custom_tags organize_by_date false ma ft filename = folder := by
  unfold psfDestFolder
  rw [if_neg (by simp)]

theorem orgFold_no_create (dateOf : Path → String) (sz : Path → Nat) (folder : Path)
    (custom_tags : List String) (organize_by_date move_files : Bool)
    (ma : List (String × String)) (ft : List (String × List String)) :
    ∀ (l : List String) (fs0 : FS) (n : Nat) (e : List String) (o : List Op),
      (∀ f ∈ l, folder ++ [f] ∈ fs0.files) → l.Nodup →
      (l.foldl (organizeStep dateOf (fun _ => false) folder custom_tags organize_by_date
          false move_files ma ft) ⟨fs0, n, e, o⟩).ops.length = o.length + l.length ∧
      ∀ op ∈ (l.foldl (organizeStep dateOf (fun _ => false) folder custom_tags
          organize_by_date false move_files ma ft) ⟨fs0, n, e, o⟩).ops,
        op ∈ o ∨ (op.src.dropLast = folder ∧ op.dst.dropLast = folder ∧ op.dst ≠ op.src) := by
  intro l
  induction l with
  | nil =>
      intro fs0 n e o hsrc hnd
      exact ⟨by simp, fun op hop => Or.inl hop⟩
  | cons x rest ih =>
      intro fs0 n e o hsrc hnd
      have hx : folder ++ [x] ∈ fs0.files := hsrc x (List.mem_cons_self _ _)
      have heq := processSingleFile_eq dateOf (fun _ => false) fs0 folder custom_tags
        organize_by_date false move_files ma ft x rfl hx
      obtain ⟨hd1, -, hd3, hd4⟩ := psfDest_spec dateOf fs0 folder custom_tags
        organize_by_date false ma ft x hx
      rw [List.foldl_cons, organizeStep_success dateOf (fun _ => false) folder custom_tags
        organize_by_date false move_files ma ft fs0 n e o x rfl, heq]
      rw [psfState_no_create, psfDestFolder_no_create] at *
      set dst := psfDest dateOf fs0 folder custom_tags organize_by_date false ma ft x with hdst
      have hop0 : (if move_files then
          ((moveFile fs0 (folder ++ [x]) dst,
            some (Op.mk OpKind.move (folder ++ [x]) dst), true) : FS × Option Op × Bool)
        else
          (copyFile fs0 (folder ++ [x]) dst,
            some (Op.mk OpKind.copy (folder ++ [x]) dst), true)).2.1.toList =
          [Op.mk (if move_files then OpKind.move else OpKind.copy) (folder ++ [x]) dst] := by
        rcases move_files with - | - <;> simp
      have hfs1 : ∀ f ∈ rest, folder ++ [f] ∈ (if move_files then
          ((moveFile fs0 (folder ++ [x]) dst,
            some (Op.mk OpKind.move (folder ++ [x]) dst), true) : FS × Option Op × Bool)
        else
          (copyFile fs0 (folder ++ [x]) dst,
            some (Op.mk OpKind.copy (folder ++ [x]) dst), true)).1.files := by
        intro f hf
        have hfm : folder ++ [f] ∈ fs0.files := hsrc f (List.mem_cons_of_mem _ hf)
        have hfx : folder ++ [f] ≠ folder ++ [x] := by
          intro hcontra
          have := concat_inj hcontra
          rw [List.nodup_cons] at hnd
          exact hnd.1 (this ▸ hf)
        have hfd : folder ++ [f] ≠ dst := by
          intro hcontra
          exact hd1 (hcontra ▸ hfm)
        rcases move_files with - | -
        · rw [if_neg (by simp : ¬ ((false : Bool) = true)), mem_copyFile]
          exact Or.inr ⟨hfm, hfd⟩
        · rw [if_pos (rfl : (true : Bool) = true), mem_moveFile]
          exact Or.inr ⟨hfm, hfx, hfd⟩
      obtain ⟨ih1, ih2⟩ := ih _ (n + 1) e
        (o ++ [Op.mk (if move_files then OpKind.move else OpKind.copy) (folder ++ [x]) dst])
        hfs1 (by rw [List.nodup_cons] at hnd; exact hnd.2)
      rw [hop0]
      refine ⟨?_, ?_⟩
      · rw [ih1]
        simp
        omega
      · intro op hop
        rcases ih2 op hop with hin | hgood
        · rcases List.mem_append.mp hin with hin2 | hin2
          · exact Or.inl hin2
          · rw [List.mem_singleton] at hin2
            subst hin2
            refine Or.inr ⟨List.dropLast_concat, ?_, fun hc => hd3 hc⟩
            exact hd4
        · exact Or.inr hgood

/-- C1: the claim as stated is false: with create-folders disabled and one
file "a.txt" in the folder, organize does not skip the file: the source
occupies the destination path, `get_unique_path` bumps it to "a_1.txt", and
the file is moved, counted as organized, and recorded in the undo log. -/
theorem organize_no_create_counterexample :
    (organize_files (fun _ => "2024-01") (fun _ => false) (fun _ => 1)
        ⟨[["f", "a.txt"]], [[], ["f"]]⟩ ["f"] [] false false true true [] [] 0 none).organized
        = 1 ∧
      (organize_files (fun _ => "2024-01") (fun _ => false) (fun _ => 1)
        ⟨[["f", "a.txt"]], [[], ["f"]]⟩ ["f"] [] false false true true [] [] 0 none).ops =
        [⟨OpKind.move, ["f", "a.txt"], ["f", "a_1.txt"]⟩] := by
  constructor
  · rfl
  · rfl

/-- C1 (amended): for every candidate file processed by organize with
create-folders disabled (and no per-file exception), the computed
destination directory equals the source folder, but the source file itself
occupies the candidate destination path, so `get_unique_path` appends
`_<N>`: the file IS moved (or copied, per the mode) to `<name>_<N><ext>`
inside the source folder, IS counted in the organized total, and IS
recorded in the undo log; no error is reported. -/
theorem organize_no_create_folders (dateOf : Path → String) (sz : Path → Nat) (fs : FS)
    (folder : Path) (custom_tags : List String) (organize_by_date move_files skip_hidden : Bool)
    (ma : List (String × String)) (ft : List (String × List String))
    (min_size_bytes : Nat) (max_size_bytes : Option Nat)
    (hnodup : fs.files.Nodup) (hfolder : folder ≠ []) :
    (organize_files dateOf (fun _ => false) sz fs folder custom_tags organize_by_date false
        move_files skip_hidden ma ft min_size_bytes max_size_bytes).organized =
      (get_files_in_folder fs sz folder skip_hidden min_size_bytes max_size_bytes).length ∧
    (organize_files dateOf (fun _ => false) sz fs folder custom_tags organize_by_date false
        move_files skip_hidden ma ft min_size_bytes max_size_bytes).errors = [] ∧
    (organize_files dateOf (fun _ => false) sz fs folder custom_tags organize_by_date false
        move_files skip_hidden ma ft min_size_bytes max_size_bytes).ops.length =
      (get_files_in_folder fs sz folder skip_hidden min_size_bytes max_size_bytes).length ∧
    ∀ op ∈ (organize_files dateOf (fun _ => false) sz fs folder custom_tags organize_by_date
        false move_files skip_hidden ma ft min_size_bytes max_size_bytes).ops,
      op.src.dropLast = folder ∧ op.dst.dropLast = folder ∧ op.dst ≠ op.src ∧
        op.kind = (if move_files then OpKind.move else OpKind.copy) := by
  obtain ⟨he, ho, hops⟩ := organize_error_handling dateOf (fun _ => false) sz fs folder
    custom_tags organize_by_date false move_files skip_hidden ma ft min_size_bytes
    max_size_bytes
  obtain ⟨hlen, hfacts⟩ := orgFold_no_create dateOf sz folder custom_tags organize_by_date
    move_files ma ft
    (get_files_in_folder fs sz folder skip_hidden min_size_bytes max_size_bytes) fs 0 [] []
    (fun f hf => get_files_in_folder_mem hfolder hf)
    (get_files_in_folder_nodup hnodup hfolder)
  refine ⟨by simpa using ho, by simpa using he, by simpa using hlen, ?_⟩
  intro op hop
  rcases hfacts op hop with hin | ⟨h1, h2, h3⟩
  · cases hin
  · obtain ⟨f, -, -, -, hkind⟩ := hops op hop
    exact ⟨h1, h2, h3, hkind⟩

theorem organize_no_create_folders_witness :
    (organize_files (fun _ => "2024-01") (fun _ => false) (fun _ => 1)
        ⟨[["f", "a.txt"]], [[], ["f"]]⟩ ["f"] [] false false true true [] [] 0 none).organized =
      (get_files_in_folder ⟨[["f", "a.txt"]], [[], ["f"]]⟩ (fun _ => 1) ["f"] true 0
        none).length ∧
    (organize_files (fun _ => "2024-01") (fun _ => false) (fun _ => 1)
        ⟨[["f", "a.txt"]], [[], ["f"]]⟩ ["f"] [] false false true true [] [] 0 none).errors =
      [] ∧
    (organize_files (fun _ => "2024-01") (fun _ => false) (fun _ => 1)
        ⟨[["f", "a.txt"]], [[], ["f"]]⟩ ["f"] [] false false true true [] [] 0 none).ops.length =
      (get_files_in_folder ⟨[["f", "a.txt"]], [[], ["f"]]⟩ (fun _ => 1) ["f"] true 0
        none).length ∧
    ∀ op ∈ (organize_files (fun _ => "2024-01") (fun _ => false) (fun _ => 1)
        ⟨[["f", "a.txt"]], [[], ["f"]]⟩ ["f"] [] false false true true [] [] 0 none).ops,
      op.src.dropLast = ["f"] ∧ op.dst.dropLast = ["f"] ∧ op.dst ≠ op.src ∧
        op.kind = (if true then OpKind.move else OpKind.copy) :=
  organize_no_create_folders (fun _ => "2024-01") (fun _ => 1) ⟨[["f", "a.txt"]], [[], ["f"]]⟩
    ["f"] [] false true true [] [] 0 none (by decide) (by decide)

theorem undoStep_shift (f : FS) (n : Nat) (t : List Path) (op : Op) :
    undoStep ⟨f, n, t⟩ op =
      ⟨(undoStep ⟨f, 0, []⟩ op).fs, n + (undoStep ⟨f, 0, []⟩ op).undone,
       t ++ (undoStep ⟨f, 0, []⟩ op).touched⟩ := by
  unfold undoStep
  cases op.kind <;> dsimp only <;> split <;> simp

theorem undoFold_shift (l : List Op) (f : FS) (n : Nat) (t : List Path) :
    l.foldl undoStep ⟨f, n, t⟩ =
      ⟨(l.foldl undoStep ⟨f, 0, []⟩).fs, n + (l.foldl undoStep ⟨f, 0, []⟩).undone,
       t ++ (l.foldl undoStep ⟨f, 0, []⟩).touched⟩ := by
  induction l generalizing f n t with
  | nil => simp
  | cons op rest ih =>
      rw [List.foldl_cons, List.foldl_cons, undoStep_shift f n t op, ih]
      rw [show (List.foldl undoStep (undoStep ⟨f, 0, []⟩ op) rest) =
        List.foldl undoStep ⟨(undoStep ⟨f, 0, []⟩ op).fs, (undoStep ⟨f, 0, []⟩ op).undone,
          (undoStep ⟨f, 0, []⟩ op).touched⟩ rest from rfl]
      rw [ih ((undoStep ⟨f, 0, []⟩ op).fs) ((undoStep ⟨f, 0, []⟩ op).undone)
        ((undoStep ⟨f, 0, []⟩ op).touched)]
      simp [Nat.add_assoc, List.append_assoc]

/-- C3: `undo_operations` processes the log in reverse of recording order
(the last recorded entry is handled first and its effects are folded in
front of the rest); a move entry whose destination still exists is moved
back to its original source and counted; a copy entry whose destination
still exists is deleted, every other path — the original source included —
untouched, and counted; an entry whose destination no longer exists is
neither counted nor reported as an error (the run's error list is empty
for the modelled, non-throwing primitives). -/
theorem undo_operations_spec :
    (∀ (fs : FS) (ops : List Op) (op : Op),
      undoPass1 fs (ops ++ [op]) =
        ⟨(undoPass1 (undoStep ⟨fs, 0, []⟩ op).fs ops).fs,
         (undoStep ⟨fs, 0, []⟩ op).undone +
           (undoPass1 (undoStep ⟨fs, 0, []⟩ op).fs ops).undone,
         (undoStep ⟨fs, 0, []⟩ op).touched ++
           (undoPass1 (undoStep ⟨fs, 0, []⟩ op).fs ops).touched⟩) ∧
    (∀ (fs : FS) (op : Op), op.kind = OpKind.move → op.dst ∈ fs.files →
      (undoStep ⟨fs, 0, []⟩ op).undone = 1 ∧
      op.src ∈ (undoStep ⟨fs, 0, []⟩ op).fs.files ∧
      (op.dst ≠ op.src → op.dst ∉ (undoStep ⟨fs, 0, []⟩ op).fs.files) ∧
      (∀ p, p ≠ op.src → p ≠ op.dst →
        (p ∈ (undoStep ⟨fs, 0, []⟩ op).fs.files ↔ p ∈ fs.files))) ∧
    (∀ (fs : FS) (op : Op), op.kind = OpKind.copy → op.dst ∈ fs.files →
      (undoStep ⟨fs, 0, []⟩ op).undone = 1 ∧
      op.dst ∉ (undoStep ⟨fs, 0, []⟩ op).fs.files ∧
      (∀ p, p ≠ op.dst → (p ∈ (undoStep ⟨fs, 0, []⟩ op).fs.files ↔ p ∈ fs.files))) ∧
    (∀ (fs : FS) (op : Op), existsPath fs op.dst = false →
      undoStep ⟨fs, 0, []⟩ op = ⟨fs, 0, []⟩) ∧
    (∀ (fs : FS) (ops : List Op),
      (undo_operations fs ops).errors = [] ∧
      (undo_operations fs ops).undone = (undoPass1 fs ops).undone) := by
  refine ⟨?_, ?_, ?_, ?_, ?_⟩
  · intro fs ops op
    unfold undoPass1
    rw [List.reverse_append, List.reverse_singleton, List.singleton_append, List.foldl_cons]
    rw [show undoStep ⟨fs, 0, []⟩ op = (⟨(undoStep ⟨fs, 0, []⟩ op).fs,
      (undoStep ⟨fs, 0, []⟩ op).undone, (undoStep ⟨fs, 0, []⟩ op).touched⟩ : UndoPassState)
      from rfl, undoFold_shift]
  · intro fs op hkind hdst
    rcases op with ⟨k, s, d⟩
    simp only at hkind hdst
    subst hkind
    unfold undoStep
    dsimp only
    rw [if_pos (by rw [existsPath_iff]; exact Or.inl hdst)]
    refine ⟨rfl, ?_, ?_, ?_⟩
    · rw [mem_moveFile]
      exact Or.inl rfl
    · intro hne hcontra
      rw [mem_moveFile] at hcontra
      rcases hcontra with heq | ⟨-, hdd, -⟩
      · exact hne heq
      · exact hdd rfl
    · intro p hps hpd
      rw [mem_moveFile]
      constructor
      · rintro (heq | ⟨hp, -, -⟩)
        · exact absurd heq hps
        · exact hp
      · intro hp
        exact Or.inr ⟨hp, hpd, hps⟩
  · intro fs op hkind hdst
    rcases op with ⟨k, s, d⟩
    simp only at hkind hdst
    subst hkind
    unfold undoStep
    dsimp only
    rw [if_pos (by rw [existsPath_iff]; exact Or.inl hdst)]
    refine ⟨rfl, ?_, ?_⟩
    · rw [mem_removeFile]
      rintro ⟨-, hcontra⟩
      exact hcontra rfl
    · intro p hpd
      rw [mem_removeFile]
      exact ⟨fun h => h.1, fun h => ⟨h, hpd⟩⟩
  · intro fs op hmiss
    rcases op with ⟨k, s, d⟩
    simp only at hmiss
    cases k
    · unfold undoStep
      dsimp only
      rw [if_neg (by rw [hmiss]; exact Bool.false_ne_true)]
    · unfold undoStep
      dsimp only
      rw [if_neg (by rw [hmiss]; exact Bool.false_ne_true)]
  · intro fs ops
    exact ⟨rfl, rfl⟩

theorem undo_operations_spec_witness :
    (undoPass1 ⟨[["f", "Images", "a.jpg"]], [[], ["f"], ["f", "Images"]]⟩
        ([] ++ [⟨OpKind.move, ["f", "a.jpg"], ["f", "Images", "a.jpg"]⟩]) =
      ⟨(undoPass1 (undoStep ⟨⟨[["f", "Images", "a.jpg"]], [[], ["f"], ["f", "Images"]]⟩, 0, []⟩
          ⟨OpKind.move, ["f", "a.jpg"], ["f", "Images", "a.jpg"]⟩).fs []).fs,
       (undoStep ⟨⟨[["f", "Images", "a.jpg"]], [[], ["f"], ["f", "Images"]]⟩, 0, []⟩
          ⟨OpKind.move, ["f", "a.jpg"], ["f", "Images", "a.jpg"]⟩).undone +
         (undoPass1 (undoStep ⟨⟨[["f", "Images", "a.jpg"]], [[], ["f"], ["f", "Images"]]⟩, 0, []⟩
            ⟨OpKind.move, ["f", "a.jpg"], ["f", "Images", "a.jpg"]⟩).fs []).undone,
       (undoStep ⟨⟨[["f", "Images", "a.jpg"]], [[], ["f"], ["f", "Images"]]⟩, 0, []⟩
          ⟨OpKind.move, ["f", "a.jpg"], ["f", "Images", "a.jpg"]⟩).touched ++
         (undoPass1 (undoStep ⟨⟨[["f", "Images", "a.jpg"]], [[], ["f"], ["f", "Images"]]⟩, 0, []⟩
            ⟨OpKind.move, ["f", "a.jpg"], ["f", "Images", "a.jpg"]⟩).fs []).touched⟩) ∧
    ((undoStep ⟨⟨[["f", "Images", "a.jpg"]], []⟩, 0, []⟩
        ⟨OpKind.move, ["f", "a.jpg"], ["f", "Images", "a.jpg"]⟩).undone = 1 ∧
      ["f", "a.jpg"] ∈ (undoStep ⟨⟨[["f", "Images", "a.jpg"]], []⟩, 0, []⟩
        ⟨OpKind.move, ["f", "a.jpg"], ["f", "Images", "a.jpg"]⟩).fs.files) ∧
    ((undoStep ⟨⟨[["f", "b.txt"], ["f", "Docs", "b.txt"]], []⟩, 0, []⟩
        ⟨OpKind.copy, ["f", "b.txt"], ["f", "Docs", "b.txt"]⟩).undone = 1 ∧
      ["f", "Docs", "b.txt"] ∉ (undoStep ⟨⟨[["f", "b.txt"], ["f", "Docs", "b.txt"]], []⟩, 0, []⟩
        ⟨OpKind.copy, ["f", "b.txt"], ["f", "Docs", "b.txt"]⟩).fs.files) ∧
    undoStep ⟨⟨[], []⟩, 0, []⟩ ⟨OpKind.move, ["f", "c.txt"], ["f", "Gone", "c.txt"]⟩ =
      ⟨⟨[], []⟩, 0, []⟩ := by
  obtain ⟨ha, hb, hc, hd, -⟩ := undo_operations_spec
  refine ⟨ha ⟨[["f", "Images", "a.jpg"]], [[], ["f"], ["f", "Images"]]⟩ []
      ⟨OpKind.move, ["f", "a.jpg"], ["f", "Images", "a.jpg"]⟩, ?_, ?_, ?_⟩
  · obtain ⟨h1, h2, -, -⟩ := hb ⟨[["f", "Images", "a.jpg"]], []⟩
      ⟨OpKind.move, ["f", "a.jpg"], ["f", "Images", "a.jpg"]⟩ rfl (by decide)
    exact ⟨h1, h2⟩
  · obtain ⟨h1, h2, -⟩ := hc ⟨[["f", "b.txt"], ["f", "Docs", "b.txt"]], []⟩
      ⟨OpKind.copy, ["f", "b.txt"], ["f", "Docs", "b.txt"]⟩ rfl (by decide)
    exact ⟨h1, h2⟩
  · exact hd ⟨[], []⟩ ⟨OpKind.move, ["f", "c.txt"], ["f", "Gone", "c.txt"]⟩ (by decide)

/-- Closure of a directory list under taking path prefixes: on a real
filesystem every ancestor of an existing directory exists.  The initial
state of the round-trip theorem is assumed prefix-closed, and `os.makedirs`
preserves the property. -/
def pfxClosed (dirs : List Path) : Prop :=
  ∀ d ∈ dirs, ∀ q, pfx q d → q ∈ dirs

theorem dirNonempty_iff {fs : FS} {d : Path} :
    dirNonempty fs d = true ↔
      ∃ q, (q ∈ fs.files ∨ q ∈ fs.dirs) ∧ q ≠ [] ∧ q.dropLast = d := by
  unfold dirNonempty
  simp only [Bool.or_eq_true, List.any_eq_true, decide_eq_true_eq]
  constructor
  · rintro (⟨q, hq, h2⟩ | ⟨q, hq, h2⟩)
    · exact ⟨q, Or.inl hq, h2⟩
    · exact ⟨q, Or.inr hq, h2⟩
  · rintro ⟨q, hq | hq, h2⟩
    · exact Or.inl ⟨q, hq, h2⟩
    · exact Or.inr ⟨q, hq, h2⟩

theorem mem_inits_iff_pfx {q p : Path} : q ∈ p.inits ↔ pfx q p := by
  rw [List.mem_inits]
  constructor
  · intro h
    obtain ⟨t, ht⟩ := h
    exact (pfx_iff q p).mpr ⟨t, ht⟩
  · intro h
    obtain ⟨t, ht⟩ := (pfx_iff q p).mp h
    exact ⟨t, ht⟩

/-- A strict prefix of an existing directory has a child in the directory
list (the next component of the longer path), hence `os.listdir` on it is
non-empty. -/
theorem chain_nonempty_of_closed {fs : FS} {q s : Path} (hpc : pfxClosed fs.dirs)
    (hs : s ∈ fs.dirs) (hqs : pfx q s) (hne : q ≠ s) : dirNonempty fs q = true := by
  have hlt : q.length < s.length := pfx_lt hqs hne
  have hcq_mem : s.take (q.length + 1) ∈ fs.dirs :=
    hpc s hs _ (pfx_take s (q.length + 1))
  have hcq_ne : s.take (q.length + 1) ≠ [] := by
    have hlen : (s.take (q.length + 1)).length = q.length + 1 := by
      rw [List.length_take]
      omega
    intro hcontra
    rw [hcontra] at hlen
    simp at hlen
  have hcq_drop : (s.take (q.length + 1)).dropLast = q := by
    rw [List.dropLast_eq_take, List.length_take, List.take_take]
    have h3 : min (min (q.length + 1) s.length - 1) (q.length + 1) = q.length := by omega
    rw [h3]
    exact hqs
  rw [dirNonempty_iff]
  exact ⟨s.take (q.length + 1), Or.inr hcq_mem, hcq_ne, hcq_drop⟩

theorem makedirs_pfxClosed {fs : FS} {p : Path} (h : pfxClosed fs.dirs) :
    pfxClosed (makedirs fs p).dirs := by
  intro d hd q hq
  rw [mem_makedirs_dirs] at hd ⊢
  rcases hd with hd | hd
  · exact Or.inl (h d hd q hq)
  · right
    rw [mem_inits_iff_pfx] at hd ⊢
    exact pfx_trans hq hd

theorem walkUp_not_dir {fs : FS} {c : Path} (fuel : Nat) (h : c ∉ fs.dirs) :
    walkUp fs c fuel = (fs, []) := by
  cases fuel with
  | zero => rfl
  | succ n =>
      have step0 : walkUp fs c (n + 1) =
          if c = [] then (fs, [])
          else if existsPath fs c = false then (fs, [])
          else if decide (c ∈ fs.dirs) = false then (fs, [])
          else if dirNonempty fs c = true then (fs, [])
          else ((walkUp (removeDir fs c) c.dropLast n).1,
            c :: (walkUp (removeDir fs c) c.dropLast n).2) := rfl
      rw [step0]
      by_cases h1 : c = []
      · rw [if_pos h1]
      · rw [if_neg h1]
        by_cases h2 : existsPath fs c = false
        · rw [if_pos h2]
        · rw [if_neg h2, if_pos (by simp [h])]

/-- Everything the round-trip argument needs from one folder-cleanup walk
`r = walkUp fs c _` rooted at a touched directory `c` below `folder`: the
files are untouched; exactly the removed directories disappear; every
removed directory lies on the chain between `folder` (exclusive) and `c`;
prefix-closure is preserved; removed directories leave no orphaned child;
and every surviving directory on the chain strictly below `folder` is
non-empty afterwards. -/
def WalkOk (folder : Path) (fs : FS) (c : Path) (r : FS × List Path) : Prop :=
  r.1.files = fs.files ∧
  (∀ d, d ∈ r.1.dirs ↔ d ∈ fs.dirs ∧ d ∉ r.2) ∧
  (∀ d ∈ r.2, pfx d c ∧ pfx folder d ∧ d ≠ folder) ∧
  pfxClosed r.1.dirs ∧
  (∀ d ∈ r.2, ∀ q, (q ∈ r.1.files ∨ q ∈ r.1.dirs) → ¬(q ≠ [] ∧ q.dropLast = d)) ∧
  (∀ q, pfx q c → pfx folder q → q ≠ folder → q ∈ r.1.dirs →
    dirNonempty r.1 q = true)

theorem walkUp_spec (folder : Path) (Hfne : folder ≠ []) :
    ∀ (fuel : Nat) (fs : FS) (c : Path),
      pfxClosed fs.dirs → c ∈ fs.dirs → pfx folder c →
      (∃ p ∈ fs.files, p ≠ [] ∧ p.dropLast = folder) →
      c.length < fuel →
      WalkOk folder fs c (walkUp fs c fuel) := by
  intro fuel
  induction fuel with
  | zero =>
      intro fs c hpc hc hfc hff hfuel
      exact absurd hfuel (by omega)
  | succ fuel ih =>
      intro fs c hpc hc hfc hff hfuel
      have hcne : c ≠ [] := by
        intro hcontra
        apply Hfne
        have h1 := hfc
        rw [hcontra] at h1
        unfold pfx at h1
        rw [List.take_nil] at h1
        exact h1.symm
      have hex : existsPath fs c = true := existsPath_iff.mpr (Or.inr hc)
      have step0 : walkUp fs c (fuel + 1) =
          if c = [] then (fs, [])
          else if existsPath fs c = false then (fs, [])
          else if decide (c ∈ fs.dirs) = false then (fs, [])
          else if dirNonempty fs c = true then (fs, [])
          else ((walkUp (removeDir fs c) c.dropLast fuel).1,
            c :: (walkUp (removeDir fs c) c.dropLast fuel).2) := rfl
      have step : walkUp fs c (fuel + 1) =
          if dirNonempty fs c = true then (fs, [])
          else ((walkUp (removeDir fs c) c.dropLast fuel).1,
            c :: (walkUp (removeDir fs c) c.dropLast fuel).2) := by
        rw [step0, if_neg hcne, if_neg (by simp [hex]), if_neg (by simp [hc])]
      by_cases hne : dirNonempty fs c = true
      · unfold WalkOk
        rw [step, if_pos hne]
        refine ⟨rfl, by simp, by simp, hpc, by simp, ?_⟩
        intro q hqc hfq hqfold hqd
        by_cases hqceq : q = c
        · rw [hqceq]
          exact hne
        · exact chain_nonempty_of_closed hpc hc hqc hqceq
      · have hcfolder : c ≠ folder := by
          intro hcontra
          apply hne
          rw [dirNonempty_iff]
          obtain ⟨p, hp, hpne, hpd⟩ := hff
          exact ⟨p, Or.inl hp, hpne, by rw [hcontra]; exact hpd⟩
        have hclen : c.length ≠ 0 := fun h => hcne (List.length_eq_zero.mp h)
        have hcempty : ∀ q, (q ∈ fs.files ∨ q ∈ fs.dirs) →
            ¬(q ≠ [] ∧ q.dropLast = c) := by
          intro q hq hcontra
          exact hne (dirNonempty_iff.mpr ⟨q, hq, hcontra.1, hcontra.2⟩)
        have hpc1 : pfxClosed (removeDir fs c).dirs := by
          intro d hd q hq
          rw [show (removeDir fs c).dirs = rmP fs.dirs c from rfl, mem_rmP] at hd ⊢
          obtain ⟨hd1, hd2⟩ := hd
          refine ⟨hpc d hd1 q hq, ?_⟩
          intro hqc
          rw [hqc] at hq
          exact hne (chain_nonempty_of_closed hpc hd1 hq (fun h => hd2 h.symm))
        have hc1 : c.dropLast ∈ (removeDir fs c).dirs := by
          rw [show (removeDir fs c).dirs = rmP fs.dirs c from rfl, mem_rmP]
          refine ⟨hpc c hc _ (pfx_dropLast c), ?_⟩
          intro hcontra
          have hlc := congrArg List.length hcontra
          rw [List.length_dropLast] at hlc
          omega
        have hfc1 : pfx folder c.dropLast := by
          refine pfx_total hfc (pfx_dropLast c) ?_
          have h1 := pfx_lt hfc (fun h2 => hcfolder h2.symm)
          rw [List.length_dropLast]
          omega
        have hff1 : ∃ p ∈ (removeDir fs c).files, p ≠ [] ∧ p.dropLast = folder := hff
        have hfuel1 : c.dropLast.length < fuel := by
          rw [List.length_dropLast]
          omega
        have ihW := ih (removeDir fs c) c.dropLast hpc1 hc1 hfc1 hff1 hfuel1
        unfold WalkOk at ihW ⊢
        obtain ⟨w1, w2, w3, w4, w5, w6⟩ := ihW
        rw [step, if_neg hne]
        dsimp only
        refine ⟨?_, ?_, ?_, w4, ?_, ?_⟩
        · rw [w1]
          rfl
        · intro d
          rw [w2 d, show (removeDir fs c).dirs = rmP fs.dirs c from rfl, mem_rmP,
            List.mem_cons]
          tauto
        · intro d hd
          rcases List.mem_cons.mp hd with rfl | hd2
          · exact ⟨pfx_refl d, hfc, hcfolder⟩
          · obtain ⟨h1, h2, h3⟩ := w3 d hd2
            exact ⟨pfx_trans h1 (pfx_dropLast c), h2, h3⟩
        · intro d hd q hq
          rcases List.mem_cons.mp hd with rfl | hd2
          · refine fun hcontra => hcempty q ?_ hcontra
            rcases hq with hqf | hqd
            · rw [w1] at hqf
              exact Or.inl hqf
            · rw [w2 q] at hqd
              have h1 := hqd.1
              rw [show (removeDir fs d).dirs = rmP fs.dirs d from rfl, mem_rmP] at h1
              exact Or.inr h1.1
          · exact w5 d hd2 q hq
        · intro q hqc hfq hqfold hqd
          have hqnec : q ≠ c := by
            intro hcontra
            rw [hcontra] at hqd
            rw [w2 c] at hqd
            have h1 := hqd.1
            rw [show (removeDir fs c).dirs = rmP fs.dirs c from rfl, mem_rmP] at h1
            exact h1.2 rfl
          have hqdrop : pfx q c.dropLast := by
            refine pfx_total hqc (pfx_dropLast c) ?_
            have h1 := pfx_lt hqc hqnec
            rw [List.length_dropLast]
            omega
          exact w6 q hqdrop hfq hqfold hqd

theorem undoFold_snoc (ops : List Op) (op : Op) (fs : FS) :
    (op :: ops).reverse.foldl undoStep ⟨fs, 0, []⟩ =
      undoStep (ops.reverse.foldl undoStep ⟨fs, 0, []⟩) op := by
  rw [List.reverse_cons, List.foldl_append]
  rfl

theorem undoStep_move_exists (st : UndoPassState) (s d : Path)
    (h : existsPath st.fs d = true) :
    undoStep st (Op.mk OpKind.move s d) =
      ⟨moveFile st.fs d s, st.undone + 1, st.touched ++ [d.dropLast]⟩ := by
  unfold undoStep
  dsimp only
  rw [if_pos h]

/-- The facts the round-trip proof needs about one successful move of
`_process_single_file`: the returned tuple, the membership change of the
file list, freshness of the destination, the destination parent below
`folder` and created, directory growth, and preservation of
prefix-closure. -/
theorem orgMoveStep (dateOf : Path → String) (fails : String → Bool) (fs0 : FS)
    (folder : Path) (custom_tags : List String) (organize_by_date create_folders : Bool)
    (ma : List (String × String)) (ft : List (String × List String)) (x : String)
    (hfx : fails x = false) (hx : folder ++ [x] ∈ fs0.files) (hfold : folder ∈ fs0.dirs) :
    ∃ (fsA : FS) (dst : Path),
      processSingleFile dateOf fails fs0 folder custom_tags organize_by_date create_folders
          true ma ft x = (fsA, some ⟨OpKind.move, folder ++ [x], dst⟩, true) ∧
      (∀ p, p ∈ fsA.files ↔ p = dst ∨ (p ∈ fs0.files ∧ p ≠ folder ++ [x] ∧ p ≠ dst)) ∧
      dst ∉ fs0.files ∧ pfx folder dst.dropLast ∧ dst.dropLast ∈ fsA.dirs ∧
      (∀ d ∈ fs0.dirs, d ∈ fsA.dirs) ∧
      (∀ d ∈ fsA.dirs, d ∈ fs0.dirs ∨ pfx d dst.dropLast) ∧
      (pfxClosed fs0.dirs → pfxClosed fsA.dirs) := by
  obtain ⟨hd1, hd2, hd3, hd4⟩ := psfDest_spec dateOf fs0 folder custom_tags organize_by_date
    create_folders ma ft x hx
  have heq := processSingleFile_eq dateOf fails fs0 folder custom_tags organize_by_date
    create_folders true ma ft x hfx hx
  rw [if_pos (rfl : (true : Bool) = true)] at heq
  refine ⟨_, _, heq, ?_, hd1, ?_, ?_, ?_, ?_, ?_⟩
  · intro p
    rw [mem_moveFile, psfState_files]
  · rw [hd4]
    exact pfx_psfDestFolder dateOf folder custom_tags organize_by_date create_folders ma ft x
  · rw [hd4, moveFile_dirs, psfState_dirs]
    rcases create_folders with - | -
    · left
      rw [psfDestFolder_no_create]
      exact hfold
    · right
      exact ⟨rfl, mem_inits_iff_pfx.mpr (pfx_refl _)⟩
  · intro d hd
    rw [moveFile_dirs, psfState_dirs]
    exact Or.inl hd
  · intro d hd
    rw [moveFile_dirs, psfState_dirs] at hd
    rcases hd with hd | ⟨-, hd⟩
    · exact Or.inl hd
    · right
      rw [hd4]
      exact mem_inits_iff_pfx.mp hd
  · intro hpc
    rw [moveFile_dirs]
    unfold psfState
    split
    · exact makedirs_pfxClosed hpc
    · exact hpc

/-- The invariant bundle of the organize-then-replay argument, for one
organize fold `R` started at `fs0` with ops accumulator `o`: the new log
entries are moves of listed files into created directories below `folder`,
directories only grow (preserving prefix-closure), and replaying the new
entries in reverse restores exactly the original file set while touching
the destination parents and leaving the directories as organize left
them. -/
def OrgOk (folder : Path) (fs0 : FS) (l : List String) (o : List Op) (R : OrgResult) :
    Prop :=
  ∃ newops : List Op,
    R.ops = o ++ newops ∧
    (∀ op ∈ newops, op.kind = OpKind.move ∧ (∃ f ∈ l, op.src = folder ++ [f]) ∧
      pfx folder op.dst.dropLast ∧ op.dst.dropLast ∈ R.fs.dirs) ∧
    (∀ d ∈ fs0.dirs, d ∈ R.fs.dirs) ∧
    (∀ d ∈ R.fs.dirs, d ∈ fs0.dirs ∨ ∃ op ∈ newops, pfx d op.dst.dropLast) ∧
    (pfxClosed fs0.dirs → pfxClosed R.fs.dirs) ∧
    (newops.reverse.foldl undoStep ⟨R.fs, 0, []⟩).fs.dirs = R.fs.dirs ∧
    (newops.reverse.foldl undoStep ⟨R.fs, 0, []⟩).undone = newops.length ∧
    (newops.reverse.foldl undoStep ⟨R.fs, 0, []⟩).touched =
      newops.reverse.map (fun op => op.dst.dropLast) ∧
    (∀ p, p ∈ (newops.reverse.foldl undoStep ⟨R.fs, 0, []⟩).fs.files ↔ p ∈ fs0.files)

theorem orgFold_roundtrip (dateOf : Path → String) (fails : String → Bool) (folder : Path)
    (custom_tags : List String) (organize_by_date create_folders : Bool)
    (ma : List (String × String)) (ft : List (String × List String)) :
    ∀ (l : List String) (fs0 : FS) (n : Nat) (e : List String) (o : List Op),
      (∀ f ∈ l, folder ++ [f] ∈ fs0.files) → l.Nodup → folder ∈ fs0.dirs →
      OrgOk folder fs0 l o
        (l.foldl (organizeStep dateOf fails folder custom_tags organize_by_date
          create_folders true ma ft) ⟨fs0, n, e, o⟩) := by
  intro l
  induction l with
  | nil =>
      intro fs0 n e o hsrc hnd hfold
      unfold OrgOk
      exact ⟨[], by simp, by simp, fun d hd => hd, fun d hd => Or.inl hd,
        fun h => h, rfl, rfl, rfl, fun p => Iff.rfl⟩
  | cons x rest ih =>
      intro fs0 n e o hsrc hnd hfold
      rcases hfx : fails x with - | -
      · have hx : folder ++ [x] ∈ fs0.files := hsrc x (List.mem_cons_self _ _)
        obtain ⟨fsA, dst, hproc, hmemA, hdst0, hdfx, hdfA, hmono, hnew, hclo⟩ :=
          orgMoveStep dateOf fails fs0 folder custom_tags organize_by_date create_folders
            ma ft x hfx hx hfold
        rw [List.foldl_cons, organizeStep_success dateOf fails folder custom_tags
          organize_by_date create_folders true ma ft fs0 n e o x hfx, hproc]
        dsimp only [Option.toList]
        have hsrcA : ∀ f ∈ rest, folder ++ [f] ∈ fsA.files := by
          intro f hf
          rw [hmemA]
          right
          refine ⟨hsrc f (List.mem_cons_of_mem _ hf), ?_, ?_⟩
          · intro hcontra
            have h1 := concat_inj hcontra
            exact (List.nodup_cons.mp hnd).1 (h1 ▸ hf)
          · intro hcontra
            exact hdst0 (hcontra ▸ hsrc f (List.mem_cons_of_mem _ hf))
        have ihR := ih fsA (n + 1) e (o ++ [Op.mk OpKind.move (folder ++ [x]) dst]) hsrcA
          ((List.nodup_cons.mp hnd).2) (hmono folder hfold)
        unfold OrgOk at ihR ⊢
        obtain ⟨newops, i1, i2, i3, i4, i5, i6, i7, i8, i9⟩ := ihR
        have hdstin := (i9 dst).mpr ((hmemA dst).mpr (Or.inl rfl))
        have hexU := existsPath_iff.mpr (Or.inl hdstin)
        refine ⟨Op.mk OpKind.move (folder ++ [x]) dst :: newops, ?_, ?_, ?_, ?_, ?_, ?_,
          ?_, ?_, ?_⟩
        · rw [i1, List.append_assoc]
          rfl
        · intro op hop
          rcases List.mem_cons.mp hop with rfl | hop2
          · exact ⟨rfl, ⟨x, List.mem_cons_self _ _, rfl⟩, hdfx, i3 _ hdfA⟩
          · obtain ⟨k1, ⟨f, hf, hsrcf⟩, k3, k4⟩ := i2 op hop2
            exact ⟨k1, ⟨f, List.mem_cons_of_mem _ hf, hsrcf⟩, k3, k4⟩
        · intro d hd
          exact i3 d (hmono d hd)
        · intro d hd
          rcases i4 d hd with hdA | ⟨op, hop, hpfx⟩
          · rcases hnew d hdA with hd0 | hpfx
            · exact Or.inl hd0
            · exact Or.inr ⟨Op.mk OpKind.move (folder ++ [x]) dst,
                List.mem_cons_self _ _, hpfx⟩
          · exact Or.inr ⟨op, List.mem_cons_of_mem _ hop, hpfx⟩
        · intro hpc
          exact i5 (hclo hpc)
        · rw [undoFold_snoc, undoStep_move_exists _ (folder ++ [x]) dst hexU]
          dsimp only
          rw [moveFile_dirs]
          exact i6
        · rw [undoFold_snoc, undoStep_move_exists _ (folder ++ [x]) dst hexU]
          dsimp only
          rw [i7]
          simp
        · rw [undoFold_snoc, undoStep_move_exists _ (folder ++ [x]) dst hexU]
          dsimp only
          rw [i8, List.reverse_cons, List.map_append]
          rfl
        · intro p
          rw [undoFold_snoc, undoStep_move_exists _ (folder ++ [x]) dst hexU]
          dsimp only
          rw [mem_moveFile, i9 p, hmemA p]
          constructor
          · rintro (rfl | ⟨hdm | ⟨hp, hps, hpd⟩, hd2, hs2⟩)
            · exact hx
            · exact absurd hdm hd2
            · exact hp
          · intro hp
            by_cases hps : p = folder ++ [x]
            · exact Or.inl hps
            · right
              have hpd : p ≠ dst := fun hc => hdst0 (hc ▸ hp)
              exact ⟨Or.inr ⟨hp, hps, hpd⟩, hpd, hps⟩
      · rw [List.foldl_cons, organizeStep_fails dateOf fails folder custom_tags
          organize_by_date create_folders true ma ft fs0 n e o x hfx]
        have ihR := ih fs0 n (e ++ [x ++ ": Operation failed"]) o
          (fun f hf => hsrc f (List.mem_cons_of_mem _ hf))
          ((List.nodup_cons.mp hnd).2) hfold
        unfold OrgOk at ihR ⊢
        obtain ⟨newops, i1, i2, i3, i4, i5, i6, i7, i8, i9⟩ := ihR
        refine ⟨newops, i1, ?_, i3, i4, i5, i6, i7, i8, i9⟩
        intro op hop
        obtain ⟨k1, ⟨f, hf, hsrcf⟩, k3, k4⟩ := i2 op hop
        exact ⟨k1, ⟨f, List.mem_cons_of_mem _ hf, hsrcf⟩, k3, k4⟩

/-- The invariant bundle of the folder-cleanup fold of `undo_operations`,
for the walks rooted at the directories in `T` (with `done` the already
walked roots): files are untouched, directories only shrink, prefix-closure
is preserved, every surviving directory strictly below `folder` on the
chain of a walked root is non-empty, every removed directory lies
strictly below `folder`, is gone, and leaves no orphaned child, and the
removal list accounts for the accumulator and for every directory that
disappeared. -/
def CleanOk (folder : Path) (fs : FS) (T done acc : List Path) (r : FS × List Path) :
    Prop :=
  r.1.files = fs.files ∧
  (∀ d, d ∈ r.1.dirs → d ∈ fs.dirs) ∧
  pfxClosed r.1.dirs ∧
  (∀ t ∈ T ++ done, ∀ q, pfx q t → pfx folder q → q ≠ folder → q ∈ r.1.dirs →
    dirNonempty r.1 q = true) ∧
  (∀ d ∈ r.2, pfx folder d ∧ d ≠ folder ∧ d ∉ r.1.dirs ∧
    (∀ q, (q ∈ r.1.files ∨ q ∈ r.1.dirs) → ¬(q ≠ [] ∧ q.dropLast = d))) ∧
  (∀ d ∈ acc, d ∈ r.2) ∧
  (∀ d, d ∈ fs.dirs → d ∉ r.1.dirs → d ∈ r.2)

theorem walkFold (folder : Path) (Hfne : folder ≠ []) :
    ∀ (T : List Path) (fs : FS) (done acc : List Path),
      pfxClosed fs.dirs →
      (∃ p ∈ fs.files, p ≠ [] ∧ p.dropLast = folder) →
      (∀ t ∈ T, pfx folder t ∧ (t ∈ fs.dirs ∨ ∃ u ∈ done, pfx t u)) →
      (∀ t ∈ done, ∀ q, pfx q t → pfx folder q → q ≠ folder → q ∈ fs.dirs →
        dirNonempty fs q = true) →
      (∀ d ∈ acc, pfx folder d ∧ d ≠ folder ∧ d ∉ fs.dirs ∧
        (∀ q, (q ∈ fs.files ∨ q ∈ fs.dirs) → ¬(q ≠ [] ∧ q.dropLast = d))) →
      CleanOk folder fs T done acc
        (T.foldl (fun a d => let w := walkUp a.1 d (d.length + 1); (w.1, a.2 ++ w.2))
          (fs, acc)) := by
  intro T
  induction T with
  | nil =>
      intro fs done acc hpc hff hT hdone hacc
      unfold CleanOk
      exact ⟨rfl, fun d hd => hd, hpc, hdone, hacc, fun d hd => hd,
        fun d hd hnd => absurd hd hnd⟩
  | cons t Trest ih =>
      intro fs done acc hpc hff hT hdone hacc
      obtain ⟨hft, htD⟩ := hT t (List.mem_cons_self _ _)
      rw [List.foldl_cons]
      dsimp only
      by_cases htd : t ∈ fs.dirs
      · have hW := walkUp_spec folder Hfne (t.length + 1) fs t hpc htd hft hff (by omega)
        unfold WalkOk at hW
        obtain ⟨w1, w2, w3, w4, w5, w6⟩ := hW
        have hff1 : ∃ p ∈ (walkUp fs t (t.length + 1)).1.files,
            p ≠ [] ∧ p.dropLast = folder := by
          rw [w1]
          exact hff
        have hT1 : ∀ u ∈ Trest, pfx folder u ∧
            (u ∈ (walkUp fs t (t.length + 1)).1.dirs ∨ ∃ v ∈ t :: done, pfx u v) := by
          intro u hu
          obtain ⟨hfu, hud⟩ := hT u (List.mem_cons_of_mem _ hu)
          refine ⟨hfu, ?_⟩
          rcases hud with hud | ⟨v, hv, huv⟩
          · by_cases hur : u ∈ (walkUp fs t (t.length + 1)).2
            · exact Or.inr ⟨t, List.mem_cons_self _ _, (w3 u hur).1⟩
            · exact Or.inl ((w2 u).mpr ⟨hud, hur⟩)
          · exact Or.inr ⟨v, List.mem_cons_of_mem _ hv, huv⟩
        have hdone1 : ∀ u ∈ t :: done, ∀ q, pfx q u → pfx folder q → q ≠ folder →
            q ∈ (walkUp fs t (t.length + 1)).1.dirs →
            dirNonempty (walkUp fs t (t.length + 1)).1 q = true := by
          intro u hu q hqu hfq hqf hqd
          rcases List.mem_cons.mp hu with rfl | hu2
          · exact w6 q hqu hfq hqf hqd
          · have hqfs : q ∈ fs.dirs := ((w2 q).mp hqd).1
            have hold := hdone u hu2 q hqu hfq hqf hqfs
            rw [dirNonempty_iff] at hold
            obtain ⟨w, hw, hwne, hwd⟩ := hold
            rcases hw with hwf | hwdir
            · rw [dirNonempty_iff]
              refine ⟨w, Or.inl ?_, hwne, hwd⟩
              rw [w1]
              exact hwf
            · by_cases hwr : w ∈ (walkUp fs t (t.length + 1)).2
              · have hqt : pfx q t := by
                  have h1 : pfx w t := (w3 w hwr).1
                  have h2 : pfx q w := by
                    rw [← hwd]
                    exact pfx_dropLast w
                  exact pfx_trans h2 h1
                exact w6 q hqt hfq hqf hqd
              · rw [dirNonempty_iff]
                exact ⟨w, Or.inr ((w2 w).mpr ⟨hwdir, hwr⟩), hwne, hwd⟩
        have hacc1 : ∀ d ∈ acc ++ (walkUp fs t (t.length + 1)).2,
            pfx folder d ∧ d ≠ folder ∧ d ∉ (walkUp fs t (t.length + 1)).1.dirs ∧
            (∀ q, (q ∈ (walkUp fs t (t.length + 1)).1.files ∨
              q ∈ (walkUp fs t (t.length + 1)).1.dirs) → ¬(q ≠ [] ∧ q.dropLast = d)) := by
          intro d hd
          rcases List.mem_append.mp hd with hda | hdw
          · obtain ⟨p1, p2, p3, p4⟩ := hacc d hda
            refine ⟨p1, p2, ?_, ?_⟩
            · intro hcontra
              exact p3 ((w2 d).mp hcontra).1
            · intro q hq
              apply p4 q
              rcases hq with hqf | hqd
              · rw [w1] at hqf
                exact Or.inl hqf
              · exact Or.inr ((w2 q).mp hqd).1
          · obtain ⟨g1, g2, g3⟩ := w3 d hdw
            refine ⟨g2, g3, ?_, w5 d hdw⟩
            intro hcontra
            exact ((w2 d).mp hcontra).2 hdw
        have ihC := ih _ (t :: done) _ w4 hff1 hT1 hdone1 hacc1
        unfold CleanOk at ihC ⊢
        obtain ⟨c1, c2, c3, c4, c5, c6, c7⟩ := ihC
        refine ⟨?_, ?_, c3, ?_, c5, ?_, ?_⟩
        · rw [c1, w1]
        · intro d hd
          exact ((w2 d).mp (c2 d hd)).1
        · intro u hu q hqu hfq hqf hqd
          rw [List.cons_append, List.mem_cons] at hu
          rcases hu with rfl | hu2
          · exact c4 _ (List.mem_append.mpr (Or.inr (List.mem_cons_self _ _)))
              q hqu hfq hqf hqd
          · rcases List.mem_append.mp hu2 with hu3 | hu3
            · exact c4 u (List.mem_append.mpr (Or.inl hu3)) q hqu hfq hqf hqd
            · exact c4 u (List.mem_append.mpr (Or.inr (List.mem_cons_of_mem _ hu3)))
                q hqu hfq hqf hqd
        · intro d hd
          exact c6 d (List.mem_append.mpr (Or.inl hd))
        · intro d hd hnd
          by_cases hdw : d ∈ (walkUp fs t (t.length + 1)).2
          · exact c6 _ (List.mem_append.mpr (Or.inr hdw))
          · exact c7 d ((w2 d).mpr ⟨hd, hdw⟩) hnd
      · rw [walkUp_not_dir (t.length + 1) htd]
        dsimp only
        rw [List.append_nil]
        have hT1 : ∀ u ∈ Trest, pfx folder u ∧
            (u ∈ fs.dirs ∨ ∃ v ∈ t :: done, pfx u v) := by
          intro u hu
          obtain ⟨hfu, hud⟩ := hT u (List.mem_cons_of_mem _ hu)
          refine ⟨hfu, ?_⟩
          rcases hud with hud | ⟨v, hv, huv⟩
          · exact Or.inl hud
          · exact Or.inr ⟨v, List.mem_cons_of_mem _ hv, huv⟩
        have hdone1 : ∀ u ∈ t :: done, ∀ q, pfx q u → pfx folder q → q ≠ folder →
            q ∈ fs.dirs → dirNonempty fs q = true := by
          intro u hu q hqu hfq hqf hqd
          rcases List.mem_cons.mp hu with rfl | hu2
          · rcases htD with htd2 | ⟨v, hv, huv⟩
            · exact absurd htd2 htd
            · exact hdone v hv q (pfx_trans hqu huv) hfq hqf hqd
          · exact hdone u hu2 q hqu hfq hqf hqd
        have ihC := ih fs (t :: done) acc hpc hff hT1 hdone1 hacc
        unfold CleanOk at ihC ⊢
        obtain ⟨c1, c2, c3, c4, c5, c6, c7⟩ := ihC
        refine ⟨c1, c2, c3, ?_, c5, c6, c7⟩
        intro u hu q hqu hfq hqf hqd
        rw [List.cons_append, List.mem_cons] at hu
        rcases hu with rfl | hu2
        · exact c4 _ (List.mem_append.mpr (Or.inr (List.mem_cons_self _ _)))
            q hqu hfq hqf hqd
        · rcases List.mem_append.mp hu2 with hu3 | hu3
          · exact c4 u (List.mem_append.mpr (Or.inl hu3)) q hqu hfq hqf hqd
          · exact c4 u (List.mem_append.mpr (Or.inr (List.mem_cons_of_mem _ hu3)))
              q hqu hfq hqf hqd

theorem pfxClosed_of_inits (dirs : List Path)
    (h : ∀ d ∈ dirs, ∀ q ∈ d.inits, q ∈ dirs) : pfxClosed dirs :=
  fun d hd q hq => h d hd q (mem_inits_iff_pfx.mpr hq)

/-- C4: the claim as stated is false: pre-existing folders are not always
preserved.  Starting from a filesystem whose top folder "f" already
contains an (empty, user-created) directory "Images" and one file "a.jpg"
classified into Images, organize moves the file into the pre-existing
directory and undo then removes "f/Images" during its empty-folder
cleanup, even though that directory existed before the run. -/
theorem organize_undo_removes_preexisting :
    ["f", "Images"] ∈ (FS.mk [["f", "a.jpg"]] [[], ["f"], ["f", "Images"]]).dirs ∧
    (undo_operations
        (organize_files (fun _ => "2024-01") (fun _ => false) (fun _ => 1)
          ⟨[["f", "a.jpg"]], [[], ["f"], ["f", "Images"]]⟩ ["f"] [] false true true true
          [] [("Images", [".jpg"])] 0 none).fs
        (organize_files (fun _ => "2024-01") (fun _ => false) (fun _ => 1)
          ⟨[["f", "a.jpg"]], [[], ["f"], ["f", "Images"]]⟩ ["f"] [] false true true true
          [] [("Images", [".jpg"])] 0 none).ops).removed = [["f", "Images"]] :=
  ⟨by decide, rfl⟩

/-- The round-trip contract of amended claim C4, for an organize run `R`
in move mode started from `fs0` on the top folder `folder` and the undo
run `U` of its log: every file is back at its original path and nothing
else exists; every logged operation is undone; no error is reported; every
removed directory lies strictly below `folder`, is really gone, and had no
remaining file or subdirectory; a pre-existing directory survives unless
it is in the removed list, and always survives when some original file
lies directly in it; and every surviving directory strictly below `folder`
on the chain of a logged destination is non-empty (so the cleanup removed
every directory it could reach, emptied or created by the run or not). -/
def RoundTripOk (fs0 : FS) (folder : Path) (R : OrgResult) (U : UndoResult) : Prop :=
  (∀ p, p ∈ U.fs.files ↔ p ∈ fs0.files) ∧
  U.undone = R.ops.length ∧
  U.errors = [] ∧
  (∀ d ∈ U.removed, pfx folder d ∧ d ≠ folder) ∧
  (∀ d ∈ U.removed, d ∉ U.fs.dirs ∧
    ∀ q, (q ∈ U.fs.files ∨ q ∈ U.fs.dirs) → ¬(q ≠ [] ∧ q.dropLast = d)) ∧
  (∀ d ∈ fs0.dirs, d ∉ U.removed → d ∈ U.fs.dirs) ∧
  (∀ d ∈ fs0.dirs, (∃ p ∈ fs0.files, p ≠ [] ∧ p.dropLast = d) → d ∈ U.fs.dirs) ∧
  (∀ d, d ∈ U.fs.dirs → pfx folder d → d ≠ folder →
    (∃ op ∈ R.ops, pfx d op.dst.dropLast) → dirNonempty U.fs d = true)

/-- C4 (amended): organize in move mode followed by undo of the produced
log restores exactly the original file set and undoes every logged entry
without error; the cleanup then removes only directories strictly below
the top folder that end up empty, leaving no orphaned children — but these
are not always directories created by the run: a pre-existing directory
that the run used as a destination and the undo emptied is removed as
well.  Pre-existing directories survive exactly when they are not in the
removed list, in particular whenever an original file lies directly in
them. -/
theorem organize_undo_roundtrip (dateOf : Path → String) (fails : String → Bool)
    (sz : Path → Nat) (fs0 : FS) (folder : Path) (custom_tags : List String)
    (organize_by_date create_folders skip_hidden : Bool)
    (ma : List (String × String)) (ft : List (String × List String))
    (min_size_bytes : Nat) (max_size_bytes : Option Nat)
    (hnodup : fs0.files.Nodup) (hfolder : folder ≠ []) (hfold : folder ∈ fs0.dirs)
    (hclosed : pfxClosed fs0.dirs) :
    RoundTripOk fs0 folder
      (organize_files dateOf fails sz fs0 folder custom_tags organize_by_date
        create_folders true skip_hidden ma ft min_size_bytes max_size_bytes)
      (undo_operations
        (organize_files dateOf fails sz fs0 folder custom_tags organize_by_date
          create_folders true skip_hidden ma ft min_size_bytes max_size_bytes).fs
        (organize_files dateOf fails sz fs0 folder custom_tags organize_by_date
          create_folders true skip_hidden ma ft min_size_bytes max_size_bytes).ops) := by
  have hR : organize_files dateOf fails sz fs0 folder custom_tags organize_by_date
      create_folders true skip_hidden ma ft min_size_bytes max_size_bytes =
      (get_files_in_folder fs0 sz folder skip_hidden min_size_bytes max_size_bytes).foldl
        (organizeStep dateOf fails folder custom_tags organize_by_date create_folders
          true ma ft) ⟨fs0, 0, [], []⟩ := rfl
  have hOrg := orgFold_roundtrip dateOf fails folder custom_tags organize_by_date
    create_folders ma ft
    (get_files_in_folder fs0 sz folder skip_hidden min_size_bytes max_size_bytes) fs0 0 [] []
    (fun f hf => get_files_in_folder_mem hfolder hf)
    (get_files_in_folder_nodup hnodup hfolder) hfold
  unfold OrgOk at hOrg
  obtain ⟨newops, i1, i2, i3, i4, i5, i6, i7, i8, i9⟩ := hOrg
  rw [List.nil_append] at i1
  generalize hG : organize_files dateOf fails sz fs0 folder custom_tags organize_by_date
    create_folders true skip_hidden ma ft min_size_bytes max_size_bytes = R
  have hG2 : (get_files_in_folder fs0 sz folder skip_hidden min_size_bytes
      max_size_bytes).foldl
      (organizeStep dateOf fails folder custom_tags organize_by_date create_folders
        true ma ft) ⟨fs0, 0, [], []⟩ = R := hR.symm.trans hG
  rw [hG2] at i1 i2 i3 i4 i5 i6 i7 i8 i9
  by_cases hne0 : newops = []
  · subst hne0
    have hpass0 : undoPass1 R.fs R.ops = ⟨R.fs, 0, []⟩ := by
      rw [show undoPass1 R.fs R.ops = R.ops.reverse.foldl undoStep ⟨R.fs, 0, []⟩ from rfl,
        i1]
      rfl
    have hU0 : undo_operations R.fs R.ops = ⟨R.fs, 0, [], []⟩ := by
      rw [show undo_operations R.fs R.ops =
        ⟨((undoPass1 R.fs R.ops).touched.dedup.foldl
            (fun a d => let w := walkUp a.1 d (d.length + 1); (w.1, a.2 ++ w.2))
            ((undoPass1 R.fs R.ops).fs, [])).1,
          (undoPass1 R.fs R.ops).undone, [],
          ((undoPass1 R.fs R.ops).touched.dedup.foldl
            (fun a d => let w := walkUp a.1 d (d.length + 1); (w.1, a.2 ++ w.2))
            ((undoPass1 R.fs R.ops).fs, [])).2⟩ from rfl, hpass0]
      rfl
    unfold RoundTripOk
    rw [hU0]
    refine ⟨?_, ?_, rfl, ?_, ?_, ?_, ?_, ?_⟩
    · intro p
      exact i9 p
    · rw [i1]
      rfl
    · intro d hd
      exact absurd hd (List.not_mem_nil d)
    · intro d hd
      exact absurd hd (List.not_mem_nil d)
    · intro d hd hdr
      exact i3 d hd
    · intro d hd hex
      exact i3 d hd
    · intro d hd1 hd2 hd3 hex
      obtain ⟨op, hop, -⟩ := hex
      rw [i1] at hop
      exact absurd hop (List.not_mem_nil op)
  · set U1 := newops.reverse.foldl undoStep ⟨R.fs, 0, []⟩ with hU1d
    have hpass : undoPass1 R.fs R.ops = U1 := by
      rw [show undoPass1 R.fs R.ops = R.ops.reverse.foldl undoStep ⟨R.fs, 0, []⟩ from rfl,
        i1]
    have hUeq : undo_operations R.fs R.ops =
        ⟨(U1.touched.dedup.foldl
            (fun a d => let w := walkUp a.1 d (d.length + 1); (w.1, a.2 ++ w.2))
            (U1.fs, [])).1,
          U1.undone, [],
          (U1.touched.dedup.foldl
            (fun a d => let w := walkUp a.1 d (d.length + 1); (w.1, a.2 ++ w.2))
            (U1.fs, [])).2⟩ := by
      rw [show undo_operations R.fs R.ops =
        ⟨((undoPass1 R.fs R.ops).touched.dedup.foldl
            (fun a d => let w := walkUp a.1 d (d.length + 1); (w.1, a.2 ++ w.2))
            ((undoPass1 R.fs R.ops).fs, [])).1,
          (undoPass1 R.fs R.ops).undone, [],
          ((undoPass1 R.fs R.ops).touched.dedup.foldl
            (fun a d => let w := walkUp a.1 d (d.length + 1); (w.1, a.2 ++ w.2))
            ((undoPass1 R.fs R.ops).fs, [])).2⟩ from rfl, hpass]
    obtain ⟨op0, hop0⟩ := List.exists_mem_of_ne_nil newops hne0
    obtain ⟨-, ⟨f0, hf0L, hsrc0⟩, -, -⟩ := i2 op0 hop0
    have hffW : ∃ p ∈ U1.fs.files, p ≠ [] ∧ p.dropLast = folder :=
      ⟨folder ++ [f0], (i9 _).mpr (get_files_in_folder_mem hfolder hf0L), by simp,
        List.dropLast_concat⟩
    have hpcW : pfxClosed U1.fs.dirs := by
      rw [i6]
      exact i5 hclosed
    have hTW : ∀ t ∈ U1.touched.dedup, pfx folder t ∧
        (t ∈ U1.fs.dirs ∨ ∃ u ∈ ([] : List Path), pfx t u) := by
      intro t ht
      have ht2 : t ∈ U1.touched := List.mem_dedup.mp ht
      rw [i8] at ht2
      obtain ⟨op, hopr, hmap⟩ := List.mem_map.mp ht2
      have hopn : op ∈ newops := List.mem_reverse.mp hopr
      obtain ⟨-, -, k3, k4⟩ := i2 op hopn
      subst hmap
      refine ⟨k3, Or.inl ?_⟩
      rw [i6]
      exact k4
    have hClean := walkFold folder hfolder U1.touched.dedup U1.fs [] [] hpcW hffW hTW
      (fun t ht => absurd ht (List.not_mem_nil t))
      (fun d hd => absurd hd (List.not_mem_nil d))
    unfold CleanOk at hClean
    obtain ⟨c1, c2, c3, c4, c5, c6, c7⟩ := hClean
    unfold RoundTripOk
    rw [hUeq]
    dsimp only
    refine ⟨?_, ?_, rfl, ?_, ?_, ?_, ?_, ?_⟩
    · intro p
      rw [c1]
      exact i9 p
    · rw [i7, i1]
    · intro d hd
      obtain ⟨g1, g2, -, -⟩ := c5 d hd
      exact ⟨g1, g2⟩
    · intro d hd
      obtain ⟨-, -, g3, g4⟩ := c5 d hd
      exact ⟨g3, g4⟩
    · intro d hd hdr
      have hdU1 : d ∈ U1.fs.dirs := by
        rw [i6]
        exact i3 d hd
      by_contra hcon
      exact hdr (c7 d hdU1 hcon)
    · intro d hd hex
      obtain ⟨p, hp, hpne, hpd⟩ := hex
      have hdU1 : d ∈ U1.fs.dirs := by
        rw [i6]
        exact i3 d hd
      by_contra hcon
      obtain ⟨-, -, -, g4⟩ := c5 d (c7 d hdU1 hcon)
      exact g4 p (Or.inl (by rw [c1]; exact (i9 p).mpr hp)) ⟨hpne, hpd⟩
    · intro d hd hfd hdf hex
      obtain ⟨op, hop, hpfx⟩ := hex
      rw [i1] at hop
      have ht : op.dst.dropLast ∈ U1.touched.dedup := by
        rw [List.mem_dedup, i8]
        exact List.mem_map.mpr ⟨op, List.mem_reverse.mpr hop, rfl⟩
      exact c4 _ (List.mem_append.mpr (Or.inl ht)) d hpfx hfd hdf hd

theorem organize_undo_roundtrip_witness :
    RoundTripOk ⟨[["f", "a.jpg"]], [[], ["f"], ["f", "Images"]]⟩ ["f"]
      (organize_files (fun _ => "2024-01") (fun _ => false) (fun _ => 1)
        ⟨[["f", "a.jpg"]], [[], ["f"], ["f", "Images"]]⟩ ["f"] [] false true true true
        [] [("Images", [".jpg"])] 0 none)
      (undo_operations
        (organize_files (fun _ => "2024-01") (fun _ => false) (fun _ => 1)
          ⟨[["f", "a.jpg"]], [[], ["f"], ["f", "Images"]]⟩ ["f"] [] false true true true
          [] [("Images", [".jpg"])] 0 none).fs
        (organize_files (fun _ => "2024-01") (fun _ => false) (fun _ => 1)
          ⟨[["f", "a.jpg"]], [[], ["f"], ["f", "Images"]]⟩ ["f"] [] false true true true
          [] [("Images", [".jpg"])] 0 none).ops) :=
  organize_undo_roundtrip (fun _ => "2024-01") (fun _ => false) (fun _ => 1)
    ⟨[["f", "a.jpg"]], [[], ["f"], ["f", "Images"]]⟩ ["f"] [] false true true
    [] [("Images", [".jpg"])] 0 none (by decide) (by decide) (by decide)
    (pfxClosed_of_inits _ (by decide))

end FileOrganizer
